import Mathlib

/-!
Verification of the control-flow-graph builder of the `flow` repository
(`src/flow/graph.py`).

The Python program turns a parsed statement tree into a control-flow graph:
node classes (`StartNode`, `StopNode`, statement `Node`, `DecisionNode`,
`MergeNode`), a `FlowGraph` holding the node set and an adjacency relation,
a recursive builder `flow_graph_from_ast` dispatched on the tree-node type,
two splicing operations (`embed`, `insert`), and a reduction pass
(`reduce_merge_nodes`).

The embedding below is a direct translation:
* node identity (Python object identity) becomes a `Nat` id drawn from a
  counter threaded through construction;
* Python sets become duplicate-free lists (`addIfAbsent`), the adjacency
  `defaultdict(set)` becomes a list of ordered pairs — a key with an empty
  successor set never influences any observable behaviour of the source, so
  the pair representation is faithful;
* the mutable default arguments `func_returns=[]`, `loop_breaks=[]` of
  `flow_graph_from_ast` are two stacks living in a `BuildState` that is
  threaded through every call and returned even on failure, exactly like
  the shared Python list objects that survive an exception;
* Python exceptions (`IndexError` from `stack[-1]` on an empty list,
  `KeyError` from `set.remove`) become an `Except` error result;
* the recursion of the builder and of the reduction pass is driven by an
  explicit fuel counter so that every definition is structural and
  computable; running out of fuel is a distinct error value, and theorems
  about all inputs quantify over the fuel.
-/

namespace Flow

/-- Tag for the Python node classes: `StartNode`, `StopNode`, plain
statement `Node`, `DecisionNode`, `MergeNode`. -/
inductive NodeKind where
  | start
  | stop
  | statement
  | decision
  | merge
deriving DecidableEq, Repr

mutual
/-- The statement tree consumed by the builder.  `atomic` stands for any
`ast.stmt` with no registered special case; the other constructors are the
shapes `flow_graph_from_ast` dispatches on.  `implicitReturn` is the
synthetic `ImplicitReturnStmt` appended to an expanded function body.
Numeric tags keep distinct source statements distinguishable. -/
inductive Stmt where
  | atomic (tag : Nat)
  | ifS (tag : Nat) (body orelse : StmtList)
  | whileS (tag : Nat) (body : StmtList)
  | forS (tag : Nat) (body : StmtList)
  | brk
  | cont
  | ret (tag : Nat)
  | funcDef (tag : Nat) (body : StmtList)
  | implicitReturn

/-- A statement sequence (a Python list of `ast.stmt`). -/
inductive StmtList where
  | nil
  | cons (head : Stmt) (tail : StmtList)
end

deriving instance DecidableEq for Stmt
deriving instance Repr for Stmt
deriving instance DecidableEq for StmtList
deriving instance Repr for StmtList

/-- Concatenation of statement sequences (`ast_root.body + [...]`). -/
def StmtList.append : StmtList → StmtList → StmtList
  | .nil, l => l
  | .cons s t, l => .cons s (t.append l)

/-- A graph node: Python distinguishes nodes by object identity, modelled
by the `id` field; `kind` is the Python class and `statement` the wrapped
`ast` statement (`none` for `StartNode`, `StopNode` and `MergeNode`). -/
structure GNode where
  id : Nat
  kind : NodeKind
  statement : Option Stmt
deriving DecidableEq, Repr

/-- `FlowGraph.__init__`: distinguished start/stop nodes, the set of user
nodes, the (never populated) set of implicit nodes, and the adjacency
relation as a set of ordered pairs. -/
structure FlowGraph where
  start_node : GNode
  end_node : GNode
  user_nodes : List GNode
  implicit_nodes : List GNode
  edges : List (GNode × GNode)
deriving DecidableEq, Repr

/-- Insertion into a Python `set`, on the duplicate-free list model. -/
def addIfAbsent {α : Type} [DecidableEq α] (x : α) (l : List α) : List α :=
  if x ∈ l then l else l ++ [x]

/-- `FlowGraph()` — a fresh graph whose start/stop nodes consume two ids. -/
def mkFlowGraph (fresh : Nat) : FlowGraph × Nat :=
  (⟨⟨fresh, .start, none⟩, ⟨fresh + 1, .stop, none⟩, [], [], []⟩, fresh + 2)

/-- `FlowGraph.add_statement_node`, returning the created node. -/
def add_statement_node (g : FlowGraph) (s : Stmt) (fresh : Nat) :
    GNode × FlowGraph × Nat :=
  let n : GNode := ⟨fresh, .statement, some s⟩
  (n, { g with user_nodes := addIfAbsent n g.user_nodes }, fresh + 1)

/-- `FlowGraph.add_decision_node`. -/
def add_decision_node (g : FlowGraph) (s : Stmt) (fresh : Nat) :
    GNode × FlowGraph × Nat :=
  let n : GNode := ⟨fresh, .decision, some s⟩
  (n, { g with user_nodes := addIfAbsent n g.user_nodes }, fresh + 1)

/-- `FlowGraph.add_merge_node`. -/
def add_merge_node (g : FlowGraph) (fresh : Nat) : GNode × FlowGraph × Nat :=
  let n : GNode := ⟨fresh, .merge, none⟩
  (n, { g with user_nodes := addIfAbsent n g.user_nodes }, fresh + 1)

/-- `FlowGraph.add_edge` — idempotent insertion into the adjacency set. -/
def add_edge (g : FlowGraph) (a b : GNode) : FlowGraph :=
  { g with edges := addIfAbsent (a, b) g.edges }

/-- The edge rewriting of `FlowGraph.embed`: a target equal to the
fragment's stop node becomes `ep`, a target or source equal to the
fragment's start node becomes `sp` (targets check the stop node first,
then the start node, as the Python code removes/adds in that order). -/
def embedEdge (other : FlowGraph) (sp ep : GNode) (p : GNode × GNode) :
    GNode × GNode :=
  (if p.1 = other.start_node then sp else p.1,
   if p.2 = other.end_node then ep
   else if p.2 = other.start_node then sp else p.2)

/-- `FlowGraph.embed(other, start_node, end_node)`: copy the fragment's
user nodes, and copy every fragment edge after rewriting its endpoints
with `embedEdge`. -/
def embed (g other : FlowGraph) (sp ep : GNode) : FlowGraph :=
  { g with
    user_nodes := other.user_nodes.foldl (fun u n => addIfAbsent n u) g.user_nodes,
    edges := other.edges.foldl (fun es p =>
      addIfAbsent (embedEdge other sp ep p) es) g.edges }

/-- `FlowGraph.insert_fake_merge_nodes(insert_node)`: create two fresh
merge nodes, redirect all edges into `insertN` to the first and move all
edges out of `insertN` onto the second, then connect the second back to
`insertN`. -/
def insert_fake_merge_nodes (g : FlowGraph) (insertN : GNode) (fresh : Nat) :
    GNode × GNode × FlowGraph × Nat :=
  let (sn, g1, f1) := add_merge_node g fresh
  let (en, g2, f2) := add_merge_node g1 f1
  let g3 := { g2 with edges := g2.edges.map (fun p =>
    (if p.1 = insertN then en else p.1, if p.2 = insertN then sn else p.2)) }
  let g4 := add_edge g3 en insertN
  (sn, en, g4, f2)

/-- `FlowGraph.insert(other, insert_node)`. -/
def insertAt (g other : FlowGraph) (insertN : GNode) (fresh : Nat) :
    FlowGraph × Nat :=
  let (sn, en, g1, f1) := insert_fake_merge_nodes g insertN fresh
  (embed g1 other sn en, f1)

/-- `FlowGraph.statement_count`: user nodes that wrap a real statement
(neither `None` nor the implicit-return marker). -/
def statement_count (g : FlowGraph) : Nat :=
  (g.user_nodes.filter (fun n =>
    decide (n.statement ≠ none ∧ n.statement ≠ some .implicitReturn))).length

/-- `FlowGraph.returns_implicitly`: look for an implicit-return node in
`implicit_nodes`; if none is found the property is `False`, otherwise test
whether some edge targets it. -/
def returns_implicitly (g : FlowGraph) : Bool :=
  match g.implicit_nodes.find? (fun n => decide (n.statement = some .implicitReturn)) with
  | none => false
  | some n => g.edges.any (fun p => p.2 = n)

/-- The two per-invocation stacks of `flow_graph_from_ast` (its mutable
default arguments `func_returns=[]` and `loop_breaks=[]`), together with
the id counter.  The head of each list is the Python list's last element
(`stack[-1]`). -/
structure BuildState where
  fresh : Nat
  func_returns : List (List GNode)
  loop_breaks : List (List GNode)
deriving DecidableEq, Repr

/-- Failures of a build: `indexError` is Python's `IndexError` raised by
`stack[-1]` on an empty list, `keyError` is the `KeyError` of
`set.remove`, `fuelOut` signals exhausted recursion fuel of the embedding.
`scopeError` is modelled from the spec: the distinct error §7 demands for
a `break`/`continue`/`return` outside a matching construct; the source
never raises it, it exists only to compare the code against the spec. -/
inductive BuildErr where
  | indexError
  | keyError
  | fuelOut
  | scopeError
deriving DecidableEq, Repr

/-- The generic `ast.stmt` rule: `Start → Statement → Stop`, also
returning the single user node (Python re-derives it with
`next(iter(graph.user_nodes))`). -/
def buildAtomicN (s : Stmt) (st : BuildState) : GNode × FlowGraph × BuildState :=
  let (g0, f0) := mkFlowGraph st.fresh
  let (n, g1, f1) := add_statement_node g0 s f0
  let g2 := add_edge g1 g1.start_node n
  let g3 := add_edge g2 n g2.end_node
  (n, g3, { st with fresh := f1 })

/-- Dispatch argument of the builder: `one` is a single statement
(`ast.stmt` and subclasses), `list` a statement list (the `list`
registration), `many` the internal state of the `for` loop inside the
list rule (remaining statements plus the graph accumulated so far). -/
inductive BIn where
  | one (s : Stmt)
  | list (l : StmtList)
  | many (l : StmtList) (g : FlowGraph)

/-- `flow_graph_from_ast`, fuel-indexed.  Each dispatch case mirrors the
correspondingly registered Python function; recursive calls run at one
less fuel. -/
def buildF : Nat → BIn → Bool → BuildState →
    Except BuildErr FlowGraph × BuildState
  | 0, _, _, st => (.error .fuelOut, st)
  | fuel + 1, .list l, expand, st =>
      let (g0, f0) := mkFlowGraph st.fresh
      let g1 := add_edge g0 g0.start_node g0.end_node
      buildF fuel (.many l g1) expand { st with fresh := f0 }
  | _ + 1, .many .nil g, _, st => (.ok g, st)
  | fuel + 1, .many (.cons s rest) g, expand, st =>
      match buildF fuel (.one s) expand st with
      | (.error e, st1) => (.error e, st1)
      | (.ok child, st1) =>
          let (g1, f1) := insertAt g child g.end_node st1.fresh
          buildF fuel (.many rest g1) expand { st1 with fresh := f1 }
  | fuel + 1, .one s, expand, st =>
      match s with
      | .ifS _ body orelse =>
          let (g0, f0) := mkFlowGraph st.fresh
          let (dec, g1, f1) := add_decision_node g0 s f0
          let (mrg, g2, f2) := add_merge_node g1 f1
          let g3 := add_edge g2 g2.start_node dec
          let g4 := add_edge g3 mrg g3.end_node
          (match buildF fuel (.list body) expand { st with fresh := f2 } with
          | (.error e, st1) => (.error e, st1)
          | (.ok child, st1) =>
              let g5 := embed g4 child dec mrg
              if orelse = .nil then (.ok (add_edge g5 dec mrg), st1)
              else
                match buildF fuel (.list orelse) expand st1 with
                | (.error e, st2) => (.error e, st2)
                | (.ok child2, st2) => (.ok (embed g5 child2 dec mrg), st2))
      | .whileS _ body =>
          -- `ast.While` rule: push a fresh break/continue frame, build
          -- decision and loop-exit merge, embed the body between the
          -- decision node and itself, pop the frame and wire each
          -- collected node — `continue` to the decision, anything else
          -- (`break`) to the merge.
          let stp := { st with loop_breaks := [] :: st.loop_breaks }
          let (g0, f0) := mkFlowGraph stp.fresh
          let (dec, g1, f1) := add_decision_node g0 s f0
          let (mrg, g2, f2) := add_merge_node g1 f1
          let g3 := add_edge g2 g2.start_node dec
          let g4 := add_edge g3 dec g3.end_node
          let g5 := add_edge g4 mrg g4.end_node
          (match buildF fuel (.list body) expand { stp with fresh := f2 } with
          | (.error e, st1) => (.error e, st1)
          | (.ok child, st1) =>
              let g6 := embed g5 child dec dec
              match st1.loop_breaks with
              | [] => (.error .indexError, st1)
              | top :: rest =>
                  let g7 := top.foldl (fun h m =>
                    add_edge h m (if m.statement = some .cont then dec else mrg)) g6
                  (.ok g7, { st1 with loop_breaks := rest }))
      | .forS _ body =>
          -- `ast.For` is registered to the same function as `ast.While`.
          let stp := { st with loop_breaks := [] :: st.loop_breaks }
          let (g0, f0) := mkFlowGraph stp.fresh
          let (dec, g1, f1) := add_decision_node g0 s f0
          let (mrg, g2, f2) := add_merge_node g1 f1
          let g3 := add_edge g2 g2.start_node dec
          let g4 := add_edge g3 dec g3.end_node
          let g5 := add_edge g4 mrg g4.end_node
          (match buildF fuel (.list body) expand { stp with fresh := f2 } with
          | (.error e, st1) => (.error e, st1)
          | (.ok child, st1) =>
              let g6 := embed g5 child dec dec
              match st1.loop_breaks with
              | [] => (.error .indexError, st1)
              | top :: rest =>
                  let g7 := top.foldl (fun h m =>
                    add_edge h m (if m.statement = some .cont then dec else mrg)) g6
                  (.ok g7, { st1 with loop_breaks := rest }))
      | .brk =>
          let (n, g0, st1) := buildAtomicN s st
          let g1 := { g0 with edges := g0.edges.filter (fun p => p.1 ≠ n) }
          (match st1.loop_breaks with
          | [] => (.error .indexError, st1)
          | top :: rest =>
              (.ok g1, { st1 with loop_breaks := addIfAbsent n top :: rest }))
      | .cont =>
          let (n, g0, st1) := buildAtomicN s st
          let g1 := { g0 with edges := g0.edges.filter (fun p => p.1 ≠ n) }
          (match st1.loop_breaks with
          | [] => (.error .indexError, st1)
          | top :: rest =>
              (.ok g1, { st1 with loop_breaks := addIfAbsent n top :: rest }))
      | .ret _ =>
          let (n, g0, st1) := buildAtomicN s st
          let g1 := { g0 with edges := g0.edges.filter (fun p => p.1 ≠ n) }
          (match st1.func_returns with
          | [] => (.error .indexError, st1)
          | top :: rest =>
              (.ok g1, { st1 with func_returns := addIfAbsent n top :: rest }))
      | .funcDef _ body =>
          if expand then
            let st0 := { st with func_returns := [] :: st.func_returns }
            match buildF fuel (.list (body.append (.cons .implicitReturn .nil))) expand st0 with
            | (.error e, st1) => (.error e, st1)
            | (.ok g, st1) =>
                (match st1.func_returns with
                | [] => (.error .indexError, st1)
                | returns :: rest =>
                    let g1 := returns.foldl (fun h r => add_edge h r h.end_node) g
                    (.ok g1, { st1 with func_returns := rest }))
          else
            let (_, g0, st1) := buildAtomicN s st
            (.ok g0, st1)
      | _ =>
          let (_, g0, st1) := buildAtomicN s st
          (.ok g0, st1)

-- Equality of build results is decidable (needed to state concrete
-- facts about computed builds).
deriving instance DecidableEq for Except

/-- The input of a top-level build: either a statement node or an
`ast.Module`. -/
inductive AstNode where
  | stmtNode (s : Stmt)
  | module (body : StmtList)

/-- Top-level dispatch of `flow_graph_from_ast`: the `ast.Module` rule
rebuilds the module body via the list rule with the expansion flag and the
stacks at their defaults (`expand=False`, the shared stack state). -/
def flow_graph_from_ast (fuel : Nat) (a : AstNode) (expand : Bool)
    (st : BuildState) : Except BuildErr FlowGraph × BuildState :=
  match a with
  | .module body => buildF fuel (.list body) false st
  | .stmtNode s => buildF fuel (.one s) expand st

/-- Successors of `n`: the Python `self.edges[n]` value set. -/
def outNbrs (g : FlowGraph) (n : GNode) : List GNode :=
  (g.edges.filter (fun p => p.1 = n)).map (fun p => p.2)

/-- Predecessors of `n`: the `from_nodes` list comprehension of
`reduce_merge_nodes`. -/
def inSrcs (g : FlowGraph) (n : GNode) : List GNode :=
  (g.edges.filter (fun p => p.2 = n)).map (fun p => p.1)

/-- The scan of `reduce_merge_nodes`: the first merge node with exactly
one outgoing edge and at most one incoming edge. -/
def findRed (g : FlowGraph) : Option GNode :=
  g.user_nodes.find? (fun n =>
    n.kind = .merge ∧ (outNbrs g n).length = 1 ∧ (inSrcs g n).length ≤ 1)

/-- One action of `reduce_merge_nodes` on a node selected by `findRed`:
no predecessor — delete the node and its outgoing edges; one predecessor —
contract `pred → n → succ` into `pred → succ`.  When the single incoming
and outgoing edge are the same self-loop, the second `set.remove` of the
source raises `KeyError`. -/
def reduceStep (g : FlowGraph) (n : GNode) : Except BuildErr FlowGraph :=
  match inSrcs g n, outNbrs g n with
  | [], _ =>
      .ok { g with user_nodes := g.user_nodes.erase n,
                   edges := g.edges.filter (fun p => p.1 ≠ n) }
  | src :: _, tgt :: _ =>
      if src = n then .error .keyError
      else
        .ok { g with user_nodes := g.user_nodes.erase n,
                     edges := addIfAbsent (src, tgt)
                       (((g.edges.erase (n, tgt)).erase (src, n))) }
  | _ :: _, [] => .ok g

/-- `FlowGraph.reduce_merge_nodes`, fuel-indexed: find a reducible merge
node, act on it, restart; stop when the scan finds nothing. -/
def reduceF : Nat → FlowGraph → Except BuildErr FlowGraph
  | 0, _ => .error .fuelOut
  | fuel + 1, g =>
      match findRed g with
      | none => .ok g
      | some n =>
          match reduceStep g n with
          | .error e => .error e
          | .ok g1 => reduceF fuel g1

/-- `reduce_merge_nodes` with its always-sufficient fuel: every action
removes one user node, so the node count bounds the recursion. -/
def reduce_merge_nodes (g : FlowGraph) : Except BuildErr FlowGraph :=
  reduceF (g.user_nodes.length + 1) g

/-- `FlowGraph.from_ast`: build with `expand=True`, then reduce. -/
def from_ast (fuel : Nat) (a : AstNode) (st : BuildState) :
    Except BuildErr FlowGraph × BuildState :=
  match flow_graph_from_ast fuel a true st with
  | (.error e, st1) => (.error e, st1)
  | (.ok g, st1) =>
      match reduce_merge_nodes g with
      | .error e => (.error e, st1)
      | .ok g1 => (.ok g1, st1)

/-- The state of a fresh interpreter: id counter at zero, both default
stacks empty. -/
def st0 : BuildState := ⟨0, [], []⟩

/-- Extract the graph of a successful build result (dummy graph on
error); used to state concrete facts about computed graphs. -/
def okGraph (r : Except BuildErr FlowGraph × BuildState) : FlowGraph :=
  match r.1 with
  | .ok g => g
  | .error _ => (mkFlowGraph 0).1


/-! ### Invariant predicates used by the theorems -/

/-- A node acceptable as an edge source: a start-kind source is the
graph's own start node, and no stop-kind node is ever a source. -/
def srcOK (g : FlowGraph) (a : GNode) : Prop :=
  (a.kind = .start → a = g.start_node) ∧ a.kind ≠ .stop

/-- A node acceptable as an edge target: a stop-kind target is the
graph's own stop node, and no start-kind node is ever a target. -/
def tgtOK (g : FlowGraph) (b : GNode) : Prop :=
  (b.kind = .stop → b = g.end_node) ∧ b.kind ≠ .start

/-- Kinds discipline of a well-formed graph: the distinguished nodes have
start/stop kind, user nodes never do, and every edge has an acceptable
source and target. -/
def kindsOK (g : FlowGraph) : Prop :=
  g.start_node.kind = .start ∧ g.end_node.kind = .stop ∧
  (∀ n ∈ g.user_nodes, n.kind ≠ .start ∧ n.kind ≠ .stop) ∧
  (∀ p ∈ g.edges, srcOK g p.1 ∧ tgtOK g p.2)

/-- Discipline of the two target stacks: return frames hold statement
nodes; break/continue frames hold statement nodes wrapping `break` or
`continue`. -/
def stOK (st : BuildState) : Prop :=
  (∀ fr ∈ st.func_returns, ∀ n ∈ fr, n.kind = .statement) ∧
  (∀ fr ∈ st.loop_breaks, ∀ n ∈ fr, n.kind = .statement ∧
    (n.statement = some .brk ∨ n.statement = some .cont))

/-- A node mentioned anywhere in a graph: distinguished, user, or an edge
endpoint. -/
def MentionedIn (g : FlowGraph) (n : GNode) : Prop :=
  n = g.start_node ∨ n = g.end_node ∨ n ∈ g.user_nodes ∨
  ∃ p ∈ g.edges, n = p.1 ∨ n = p.2

/-- Every node mentioned in the graph has id below `hi`. -/
def mentionsLt (g : FlowGraph) (hi : Nat) : Prop :=
  ∀ n, MentionedIn g n → n.id < hi

/-- Every node mentioned in the graph has id at least `lo`. -/
def mentionsGe (g : FlowGraph) (lo : Nat) : Prop :=
  ∀ n, MentionedIn g n → lo ≤ n.id

/-- Frame growth: every node of the new frame was already in the old frame
or was created while the id counter ran from `lo` to `hi`. -/
def FrameLe (lo hi : Nat) (old new : List GNode) : Prop :=
  ∀ n ∈ new, n ∈ old ∨ (lo ≤ n.id ∧ n.id < hi)

/-- Pointwise frame growth of both stacks across a build step. -/
def FramesLe (lo hi : Nat) (st st' : BuildState) : Prop :=
  List.Forall₂ (FrameLe lo hi) st.func_returns st'.func_returns ∧
  List.Forall₂ (FrameLe lo hi) st.loop_breaks st'.loop_breaks

/-- Membership of a statement in a statement sequence. -/
def StmtList.memS (s : Stmt) : StmtList → Bool
  | .nil => false
  | .cons h t => decide (s = h) || StmtList.memS s t

/-- Every node mentioned in the graph has id in the interval `[lo, hi)`. -/
def gBound (g : FlowGraph) (lo hi : Nat) : Prop :=
  ∀ n, MentionedIn g n → lo ≤ n.id ∧ n.id < hi

/-- No frame of the loop stack holds a node wrapping `break`. -/
def BrkFree (stks : List (List GNode)) : Prop :=
  ∀ fr ∈ stks, ∀ n ∈ fr, n.statement ≠ some Stmt.brk

mutual
/-- No `break` statement occurs anywhere inside the statement, at any
nesting depth. -/
def noBrkS : Stmt → Bool
  | .brk => false
  | .ifS _ b o => noBrkL b && noBrkL o
  | .whileS _ b => noBrkL b
  | .forS _ b => noBrkL b
  | .funcDef _ b => noBrkL b
  | _ => true

/-- No `break` statement occurs anywhere inside the sequence. -/
def noBrkL : StmtList → Bool
  | .nil => true
  | .cons s t => noBrkS s && noBrkL t
end

/-- No `break` occurs anywhere inside a builder input. -/
def noBrkB : BIn → Bool
  | .one s => noBrkS s
  | .list l => noBrkL l
  | .many l _ => noBrkL l

/-! ### Concrete programs used by the claims -/

/-- The function of the repository test named for early returns:
an `if` containing a statement and a `return`, then a statement and a
second `return`, then one trailing dead statement. -/
def earlyReturnsBody : StmtList :=
  .cons (.ifS 9 (.cons (.atomic 1) (.cons (.ret 1) .nil)) .nil)
    (.cons (.atomic 2) (.cons (.ret 2) (.cons (.atomic 3) .nil)))

/-- The early-returns function passed directly to the top-level build. -/
def earlyReturnsInput : AstNode := .stmtNode (.funcDef 0 earlyReturnsBody)

/-- The finished (built and reduced) graph of the early-returns function. -/
def earlyReturnsGraph : FlowGraph := okGraph (from_ast 30 earlyReturnsInput st0)

/-- A graph built with the public operations only: one merge node with no
incoming edges and two outgoing edges to statement nodes. -/
def orphanMergeGraph : FlowGraph :=
  let (g0, f0) := mkFlowGraph 0
  let (m, g1, f1) := add_merge_node g0 f0
  let (a, g2, f2) := add_statement_node g1 (.atomic 0) f1
  let (b, g3, _) := add_statement_node g2 (.atomic 1) f2
  add_edge (add_edge g3 m a) m b

/-- Extract the graph of a successful reduction (dummy graph on error). -/
def okRed (r : Except BuildErr FlowGraph) : FlowGraph :=
  match r with
  | .ok g => g
  | .error _ => (mkFlowGraph 0).1

/-- A graph built with the public operations only: one merge node with no
incoming edges and exactly one outgoing edge, to a statement node. -/
def soloMergeGraph : FlowGraph :=
  let (g0, f0) := mkFlowGraph 0
  let (m, g1, f1) := add_merge_node g0 f0
  let (a, g2, _) := add_statement_node g1 (.atomic 0) f1
  add_edge g2 m a

/-- A `while` loop whose body is an `if` containing a `break`. -/
def nestedBreakBody : StmtList := .cons (.ifS 1 (.cons .brk .nil) .nil) .nil

/-- The nested-break loop as top-level input. -/
def nestedBreakInput : AstNode := .stmtNode (.whileS 0 nestedBreakBody)

/-- The finished (built and reduced) graph of the nested-break loop. -/
def nestedBreakGraph : FlowGraph := okGraph (from_ast 30 nestedBreakInput st0)

/-! ### C2 — early-returns graph shape -/

/-- C2 counterexample: the claim says the trailing dead statement node has
no incident edges at all, but in the built-and-reduced graph the node
wrapping the trailing statement has an outgoing edge (into the
implicit-return marker node). -/
theorem c2_dead_code_has_outgoing_edge :
    earlyReturnsGraph.user_nodes.any (fun n =>
      decide (n.statement = some (.atomic 3)) &&
      earlyReturnsGraph.edges.any (fun p =>
        decide (p.1 = n) || decide (p.2 = n))) = true := by decide

/-- C2 (amended): for the early-returns function, the finished graph has
statement count 6; the trailing dead statement node is present in the node
set with no incoming edges, and its only outgoing edges go to the
implicit-return marker node; both return nodes have an edge directly to
the graph's stop node. -/
theorem c2_early_returns_graph :
    (from_ast 30 earlyReturnsInput st0).1.isOk = true ∧
    statement_count earlyReturnsGraph = 6 ∧
    earlyReturnsGraph.user_nodes.any (fun n =>
      decide (n.statement = some (.atomic 3)) &&
      earlyReturnsGraph.edges.all (fun p => decide (p.2 ≠ n)) &&
      earlyReturnsGraph.edges.all (fun p =>
        !(decide (p.1 = n)) || decide (p.2.statement = some .implicitReturn))) = true ∧
    earlyReturnsGraph.user_nodes.any (fun n =>
      decide (n.statement = some (.ret 1)) &&
      decide ((n, earlyReturnsGraph.end_node) ∈ earlyReturnsGraph.edges)) = true ∧
    earlyReturnsGraph.user_nodes.any (fun n =>
      decide (n.statement = some (.ret 2)) &&
      decide ((n, earlyReturnsGraph.end_node) ∈ earlyReturnsGraph.edges)) = true := by
  exact ⟨by decide, by decide, by decide, by decide, by decide⟩

/-! ### C3 — break/continue/return outside any loop/function -/

/-- C3 counterexample: the claim says a `break`, `continue` or `return`
outside any enclosing loop/function fails with a distinct ScopeError; the
code fails with the generic IndexError of indexing an empty stack
instead. -/
theorem c3_not_scope_error :
    (from_ast 10 (.stmtNode .brk) st0).1 ≠ .error .scopeError ∧
    (from_ast 10 (.stmtNode .cont) st0).1 ≠ .error .scopeError ∧
    (from_ast 10 (.stmtNode (.ret 0)) st0).1 ≠ .error .scopeError := by
  exact ⟨by decide, by decide, by decide⟩

/-- C3 (amended): a `break` or `continue` built with an empty loop-target
stack, and a `return` built with an empty function-target stack, each make
the build fail — but with the IndexError of `stack[-1]` on an empty list,
not with a distinct ScopeError. -/
theorem c3_empty_stack_index_error :
    (from_ast 10 (.stmtNode .brk) st0).1 = .error .indexError ∧
    (from_ast 10 (.stmtNode .cont) st0).1 = .error .indexError ∧
    (from_ast 10 (.stmtNode (.ret 0)) st0).1 = .error .indexError := by
  exact ⟨by decide, by decide, by decide⟩

/-! ### C4 — no state crosses top-level builds -/

/-- C4: the claim (and the spec) require the two target stacks to be fresh
at the start of every top-level build, so that a second build behaves as
if run alone.  The code violates this: building a function whose body is a
bare `break` fails mid-build after pushing a return frame, and the frame
survives in the shared default stacks; a subsequent top-level build of a
bare `return` then succeeds, although run alone it fails. -/
theorem c4_default_stack_leak :
    (from_ast 10 (.stmtNode (.funcDef 0 (.cons .brk .nil))) st0).1
        = .error .indexError ∧
    (from_ast 10 (.stmtNode (.funcDef 0 (.cons .brk .nil))) st0).2.func_returns
        = [[]] ∧
    (from_ast 10 (.stmtNode (.ret 0))
        (from_ast 10 (.stmtNode (.funcDef 0 (.cons .brk .nil))) st0).2).1.isOk
        = true ∧
    (from_ast 10 (.stmtNode (.ret 0)) st0).1 = .error .indexError := by
  exact ⟨by decide, by decide, by decide, by decide⟩

/-! ### C7 counterexample — a zero-indegree merge node can survive -/

/-- C7 counterexample: the claim says the reduction pass deletes every
merge node with zero incoming edges, so none remains afterwards.  On a
graph whose merge node has zero incoming but two outgoing edges, the pass
terminates without touching it. -/
theorem c7_zero_in_merge_survives :
    reduce_merge_nodes orphanMergeGraph = .ok orphanMergeGraph ∧
    orphanMergeGraph.user_nodes.any (fun n =>
      decide (n.kind = .merge) && decide (inSrcs orphanMergeGraph n = [])) = true := by
  exact ⟨by decide, by decide⟩


/-! ### Basic lemmas about the set operations -/

theorem mem_addIfAbsent {α : Type} [DecidableEq α] {x a : α} {l : List α} :
    a ∈ addIfAbsent x l ↔ a ∈ l ∨ a = x := by
  unfold addIfAbsent
  split
  · rename_i hx
    constructor
    · exact Or.inl
    · rintro (h | rfl)
      · exact h
      · exact hx
  · simp [List.mem_append]

theorem mem_foldl_addIfAbsent {α β : Type} [DecidableEq α] (f : β → α)
    (l : List β) (init : List α) (a : α) :
    a ∈ l.foldl (fun es q => addIfAbsent (f q) es) init ↔
      a ∈ init ∨ ∃ q ∈ l, f q = a := by
  induction l generalizing init with
  | nil => simp
  | cons q t ih =>
      simp only [List.foldl_cons, ih, mem_addIfAbsent, List.mem_cons]
      constructor
      · rintro ((h | rfl) | ⟨r, hr, rfl⟩)
        · exact Or.inl h
        · exact Or.inr ⟨q, Or.inl rfl, rfl⟩
        · exact Or.inr ⟨r, Or.inr hr, rfl⟩
      · rintro (h | ⟨r, (rfl | hr), rfl⟩)
        · exact Or.inl (Or.inl h)
        · exact Or.inl (Or.inr rfl)
        · exact Or.inr ⟨r, hr, rfl⟩

theorem mem_foldl_addIfAbsent_id {α : Type} [DecidableEq α]
    (l init : List α) (a : α) :
    a ∈ l.foldl (fun u n => addIfAbsent n u) init ↔ a ∈ init ∨ a ∈ l := by
  induction l generalizing init with
  | nil => simp
  | cons q t ih =>
      simp only [List.foldl_cons, ih, mem_addIfAbsent, List.mem_cons]
      constructor
      · rintro ((h | rfl) | h)
        · exact Or.inl h
        · exact Or.inr (Or.inl rfl)
        · exact Or.inr (Or.inr h)
      · rintro (h | rfl | h)
        · exact Or.inl (Or.inl h)
        · exact Or.inl (Or.inr rfl)
        · exact Or.inr h

/-! ### Field lemmas for the graph operations -/

@[simp] theorem add_edge_start (g : FlowGraph) (a b : GNode) :
    (add_edge g a b).start_node = g.start_node := rfl

@[simp] theorem add_edge_end (g : FlowGraph) (a b : GNode) :
    (add_edge g a b).end_node = g.end_node := rfl

@[simp] theorem add_edge_user (g : FlowGraph) (a b : GNode) :
    (add_edge g a b).user_nodes = g.user_nodes := rfl

@[simp] theorem add_edge_implicit (g : FlowGraph) (a b : GNode) :
    (add_edge g a b).implicit_nodes = g.implicit_nodes := rfl

theorem mem_add_edge_edges {g : FlowGraph} {a b : GNode} {p : GNode × GNode} :
    p ∈ (add_edge g a b).edges ↔ p ∈ g.edges ∨ p = (a, b) :=
  mem_addIfAbsent

@[simp] theorem embed_start (g o : FlowGraph) (sp ep : GNode) :
    (embed g o sp ep).start_node = g.start_node := rfl

@[simp] theorem embed_end (g o : FlowGraph) (sp ep : GNode) :
    (embed g o sp ep).end_node = g.end_node := rfl

@[simp] theorem embed_implicit (g o : FlowGraph) (sp ep : GNode) :
    (embed g o sp ep).implicit_nodes = g.implicit_nodes := rfl

theorem mem_embed_user {g o : FlowGraph} {sp ep n : GNode} :
    n ∈ (embed g o sp ep).user_nodes ↔ n ∈ g.user_nodes ∨ n ∈ o.user_nodes :=
  mem_foldl_addIfAbsent_id o.user_nodes g.user_nodes n

theorem mem_embed_edges {g o : FlowGraph} {sp ep : GNode} {p : GNode × GNode} :
    p ∈ (embed g o sp ep).edges ↔
      p ∈ g.edges ∨ ∃ q ∈ o.edges, embedEdge o sp ep q = p :=
  mem_foldl_addIfAbsent (embedEdge o sp ep) o.edges g.edges p

@[simp] theorem insertAt_start (g o : FlowGraph) (i : GNode) (f : Nat) :
    (insertAt g o i f).1.start_node = g.start_node := rfl

@[simp] theorem insertAt_end (g o : FlowGraph) (i : GNode) (f : Nat) :
    (insertAt g o i f).1.end_node = g.end_node := rfl

@[simp] theorem insertAt_implicit (g o : FlowGraph) (i : GNode) (f : Nat) :
    (insertAt g o i f).1.implicit_nodes = g.implicit_nodes := rfl

@[simp] theorem insertAt_fresh (g o : FlowGraph) (i : GNode) (f : Nat) :
    (insertAt g o i f).2 = f + 2 := rfl

theorem foldl_add_edge_start (tgt : GNode → GNode) (l : List GNode)
    (g : FlowGraph) :
    (l.foldl (fun h m => add_edge h m (tgt m)) g).start_node = g.start_node := by
  induction l generalizing g with
  | nil => rfl
  | cons m t ih => simp [List.foldl_cons, ih]

theorem foldl_add_edge_end (tgt : GNode → GNode) (l : List GNode)
    (g : FlowGraph) :
    (l.foldl (fun h m => add_edge h m (tgt m)) g).end_node = g.end_node := by
  induction l generalizing g with
  | nil => rfl
  | cons m t ih => simp [List.foldl_cons, ih]

theorem foldl_add_edge_user (tgt : GNode → GNode) (l : List GNode)
    (g : FlowGraph) :
    (l.foldl (fun h m => add_edge h m (tgt m)) g).user_nodes = g.user_nodes := by
  induction l generalizing g with
  | nil => rfl
  | cons m t ih => simp [List.foldl_cons, ih]

theorem foldl_add_edge_implicit (tgt : GNode → GNode) (l : List GNode)
    (g : FlowGraph) :
    (l.foldl (fun h m => add_edge h m (tgt m)) g).implicit_nodes
      = g.implicit_nodes := by
  induction l generalizing g with
  | nil => rfl
  | cons m t ih => simp [List.foldl_cons, ih]

theorem mem_foldl_add_edge (tgt : GNode → GNode) (l : List GNode)
    (g : FlowGraph) (p : GNode × GNode) :
    p ∈ (l.foldl (fun h m => add_edge h m (tgt m)) g).edges ↔
      p ∈ g.edges ∨ ∃ m ∈ l, p = (m, tgt m) := by
  induction l generalizing g with
  | nil => simp
  | cons m t ih =>
      simp only [List.foldl_cons, ih, mem_add_edge_edges, List.mem_cons]
      constructor
      · rintro ((h | rfl) | ⟨r, hr, rfl⟩)
        · exact Or.inl h
        · exact Or.inr ⟨m, Or.inl rfl, rfl⟩
        · exact Or.inr ⟨r, Or.inr hr, rfl⟩
      · rintro (h | ⟨r, (rfl | hr), rfl⟩)
        · exact Or.inl (Or.inl h)
        · exact Or.inl (Or.inr rfl)
        · exact Or.inr ⟨r, hr, rfl⟩

theorem foldl_add_edge_end_eq (l : List GNode) (g : FlowGraph) :
    l.foldl (fun h r => add_edge h r h.end_node) g
      = l.foldl (fun h r => add_edge h r g.end_node) g := by
  induction l generalizing g with
  | nil => rfl
  | cons m t ih => simp only [List.foldl_cons]; rw [ih]; rfl

/-! ### The implicit-node set is never populated -/

theorem reduceStep_implicit {g g1 : FlowGraph} {n : GNode}
    (h : reduceStep g n = .ok g1) : g1.implicit_nodes = g.implicit_nodes := by
  unfold reduceStep at h
  split at h
  · cases h; rfl
  · split at h
    · cases h
    · cases h; rfl
  · cases h; rfl

theorem reduceF_implicit {fuel : Nat} {g g1 : FlowGraph}
    (h : reduceF fuel g = .ok g1) : g1.implicit_nodes = g.implicit_nodes := by
  induction fuel generalizing g with
  | zero => cases h
  | succ fuel ih =>
      unfold reduceF at h
      split at h
      · cases h; rfl
      · split at h
        · cases h
        · rename_i hstep
          rw [ih h, reduceStep_implicit hstep]

theorem returns_implicitly_of_nil {g : FlowGraph}
    (h : g.implicit_nodes = []) : returns_implicitly g = false := by
  unfold returns_implicitly
  rw [h]
  rfl

theorem buildF_implicit :
    ∀ fuel inp expand st r st1, buildF fuel inp expand st = (r, st1) →
      (∀ l g0, inp = .many l g0 → g0.implicit_nodes = []) →
      ∀ g, r = .ok g → g.implicit_nodes = [] := by
  intro fuel
  induction fuel with
  | zero =>
      intro inp expand st r st1 h _ g hg
      cases h
      cases hg
  | succ fuel ih =>
      intro inp expand st r st1 h hmany g hg
      match inp with
      | .list l =>
          exact ih _ _ _ _ _ h (by intro l0 g0 he; cases he; rfl) g hg
      | .many .nil g0 =>
          simp only [buildF] at h
          cases h
          cases hg
          exact hmany _ _ rfl
      | .many (.cons s rest) g0 =>
          simp only [buildF] at h
          split at h
          · cases h; cases hg
          · rename_i child st2 hchild
            exact ih _ _ _ _ _ h
              (by intro l1 g1 he; cases he; simp [hmany _ _ rfl]) g hg
      | .one s =>
          match s with
          | .atomic t =>
              simp only [buildF] at h
              cases h; cases hg; rfl
          | .implicitReturn =>
              simp only [buildF] at h
              cases h; cases hg; rfl
          | .brk =>
              simp only [buildF] at h
              split at h
              · cases h; cases hg
              · cases h; cases hg; rfl
          | .cont =>
              simp only [buildF] at h
              split at h
              · cases h; cases hg
              · cases h; cases hg; rfl
          | .ret t =>
              simp only [buildF] at h
              split at h
              · cases h; cases hg
              · cases h; cases hg; rfl
          | .ifS t body orelse =>
              simp only [buildF] at h
              split at h
              · cases h; cases hg
              · rename_i child st2 hchild
                split at h
                · cases h; cases hg; rfl
                · split at h
                  · cases h; cases hg
                  · cases h; cases hg; rfl
          | .whileS t body =>
              simp only [buildF] at h
              split at h
              · cases h; cases hg
              · rename_i child st2 hchild
                split at h
                · cases h; cases hg
                · cases h; cases hg
                  rw [foldl_add_edge_implicit]
                  rfl
          | .forS t body =>
              simp only [buildF] at h
              split at h
              · cases h; cases hg
              · rename_i child st2 hchild
                split at h
                · cases h; cases hg
                · cases h; cases hg
                  rw [foldl_add_edge_implicit]
                  rfl
          | .funcDef t body =>
              simp only [buildF] at h
              split at h
              · rename_i hexp
                split at h
                · cases h; cases hg
                · rename_i child st2 hchild
                  split at h
                  · cases h; cases hg
                  · cases h
                    cases hg
                    rw [foldl_add_edge_end_eq, foldl_add_edge_implicit]
                    exact ih _ _ _ _ _ hchild (by intro l1 g1 he; cases he) _ rfl
              · cases h; cases hg; rfl

theorem from_ast_implicit {fuel : Nat} {a : AstNode} {st : BuildState}
    {g : FlowGraph} {st1 : BuildState}
    (h : from_ast fuel a st = (.ok g, st1)) : g.implicit_nodes = [] := by
  unfold from_ast at h
  split at h
  · cases h
  · rename_i g0 st2 hbuild
    split at h
    · cases h
    · rename_i g1 hred
      cases h
      rw [reduceF_implicit hred]
      unfold flow_graph_from_ast at hbuild
      split at hbuild
      · exact buildF_implicit _ _ _ _ _ _ hbuild (by intro l g2 he; cases he) _ rfl
      · exact buildF_implicit _ _ _ _ _ _ hbuild (by intro l g2 he; cases he) _ rfl

/-! ### C10 — `returns_implicitly` is constantly false -/

/-- C10: every graph produced by the top-level build has
`returns_implicitly = False`; the implicit-node set that the property
inspects is never populated — not by the build and not by any of the
public graph operations — while statement nodes (including implicit-return
markers) are registered in the user node set. -/
theorem c10_returns_implicitly_false :
    (∀ fuel a st g st1, from_ast fuel a st = (.ok g, st1) →
        g.implicit_nodes = [] ∧ returns_implicitly g = false) ∧
    (∀ g s f, (add_statement_node g s f).2.1.implicit_nodes = g.implicit_nodes ∧
        (add_statement_node g s f).1 ∈ (add_statement_node g s f).2.1.user_nodes) ∧
    (∀ g s f, (add_decision_node g s f).2.1.implicit_nodes = g.implicit_nodes) ∧
    (∀ g f, (add_merge_node g f).2.1.implicit_nodes = g.implicit_nodes) ∧
    (∀ g a b, (add_edge g a b).implicit_nodes = g.implicit_nodes) ∧
    (∀ g o sp ep, (embed g o sp ep).implicit_nodes = g.implicit_nodes) ∧
    (∀ g o i f, (insertAt g o i f).1.implicit_nodes = g.implicit_nodes) ∧
    (∀ g : FlowGraph, g.implicit_nodes = [] → returns_implicitly g = false) := by
  refine ⟨?_, ?_, ?_, ?_, ?_, ?_, ?_, ?_⟩
  · intro fuel a st g st1 h
    have hi := from_ast_implicit h
    exact ⟨hi, returns_implicitly_of_nil hi⟩
  · intro g s f
    exact ⟨rfl, mem_addIfAbsent.mpr (Or.inr rfl)⟩
  · intro g s f; rfl
  · intro g f; rfl
  · intro g a b; rfl
  · intro g o sp ep; rfl
  · intro g o i f; rfl
  · intro g h; exact returns_implicitly_of_nil h

/-- C10 witness: the property evaluated on a concretely built graph. -/
theorem c10_witness :
    returns_implicitly (okGraph (from_ast 10 (.stmtNode (.atomic 0)) st0)) = false := by
  have h := c10_returns_implicitly_false.1 10 (.stmtNode (.atomic 0)) st0
    (okGraph (from_ast 10 (.stmtNode (.atomic 0)) st0))
    (from_ast 10 (.stmtNode (.atomic 0)) st0).2 rfl
  exact h.2


/-! ### The reduction pass: termination state and idempotence -/

theorem reduceF_ok_findRed_none {fuel : Nat} {g g1 : FlowGraph}
    (h : reduceF fuel g = .ok g1) : findRed g1 = none := by
  induction fuel generalizing g with
  | zero => cases h
  | succ fuel ih =>
      unfold reduceF at h
      split at h
      · rename_i hnone
        cases h
        exact hnone
      · split at h
        · cases h
        · exact ih h

theorem reduceF_of_findRed_none {fuel : Nat} {g : FlowGraph}
    (h : findRed g = none) (hf : 0 < fuel) : reduceF fuel g = .ok g := by
  cases fuel with
  | zero => cases hf
  | succ fuel =>
      unfold reduceF
      rw [h]

/-- C8: the reduction pass is idempotent — whenever it completes, running
it again on its result returns that result unchanged (same node set and
edge set). -/
theorem c8_reduction_idempotent :
    ∀ g g1 : FlowGraph, reduce_merge_nodes g = .ok g1 →
      reduce_merge_nodes g1 = .ok g1 := by
  intro g g1 h
  unfold reduce_merge_nodes at h ⊢
  exact reduceF_of_findRed_none (reduceF_ok_findRed_none h) (Nat.succ_pos _)

/-- C8 witness: idempotence on the concretely built early-returns graph. -/
theorem c8_witness :
    reduce_merge_nodes earlyReturnsGraph = .ok earlyReturnsGraph := by
  exact c8_reduction_idempotent
    (okGraph (flow_graph_from_ast 30 earlyReturnsInput true st0))
    earlyReturnsGraph (by decide)

/-! ### Degree bookkeeping for the reduction pass -/

theorem mem_outNbrs {g : FlowGraph} {n x : GNode} :
    x ∈ outNbrs g n ↔ (n, x) ∈ g.edges := by
  unfold outNbrs
  simp only [List.mem_map, List.mem_filter, decide_eq_true_eq]
  constructor
  · rintro ⟨p, ⟨hp, rfl⟩, rfl⟩
    exact hp
  · intro h
    exact ⟨(n, x), ⟨h, rfl⟩, rfl⟩

theorem mem_inSrcs {g : FlowGraph} {n x : GNode} :
    x ∈ inSrcs g n ↔ (x, n) ∈ g.edges := by
  unfold inSrcs
  simp only [List.mem_map, List.mem_filter, decide_eq_true_eq]
  constructor
  · rintro ⟨p, ⟨hp, rfl⟩, rfl⟩
    exact hp
  · intro h
    exact ⟨(x, n), ⟨h, rfl⟩, rfl⟩

theorem inSrcs_eq_nil_iff {g : FlowGraph} {n : GNode} :
    inSrcs g n = [] ↔ ∀ p ∈ g.edges, p.2 ≠ n := by
  unfold inSrcs
  simp only [List.map_eq_nil_iff, List.filter_eq_nil_iff, decide_eq_true_eq]

theorem outNbrs_length {g : FlowGraph} {n : GNode} :
    (outNbrs g n).length = (g.edges.countP (fun p => decide (p.1 = n))) := by
  unfold outNbrs
  rw [List.length_map, List.countP_eq_length_filter]

theorem countP_addIfAbsent {α : Type} [DecidableEq α] (q : α → Bool)
    (x : α) (l : List α) :
    (addIfAbsent x l).countP q
      = l.countP q + (if x ∈ l then 0 else if q x then 1 else 0) := by
  unfold addIfAbsent
  split
  · simp
  · rw [List.countP_append]
    simp [List.countP_cons]

theorem countP_erase_not {α : Type} [BEq α] [LawfulBEq α] (q : α → Bool)
    (a : α) (l : List α) (h : q a = false) :
    (l.erase a).countP q = l.countP q := by
  induction l with
  | nil => rfl
  | cons b t ih =>
      rw [List.erase_cons]
      cases hba : b == a
      · rw [if_neg (by simp), List.countP_cons, List.countP_cons, ih]
      · rw [if_pos rfl, List.countP_cons]
        have hb : b = a := eq_of_beq hba
        rw [hb, h]
        simp

theorem countP_erase_mem {α : Type} [BEq α] [LawfulBEq α] {q : α → Bool}
    {a : α} {l : List α} (hm : a ∈ l) (h : q a = true) :
    (l.erase a).countP q + 1 = l.countP q := by
  induction l with
  | nil => cases hm
  | cons b t ih =>
      rw [List.erase_cons]
      cases hba : b == a
      · have hmt : a ∈ t := by
          cases hm with
          | head => simp at hba
          | tail _ hmt => exact hmt
        rw [if_neg (by simp), List.countP_cons, List.countP_cons,
          ← ih hmt]
        omega
      · have hb : b = a := eq_of_beq hba
        rw [if_pos rfl, List.countP_cons, hb, h]
        simp

theorem countP_erase_le {α : Type} [BEq α] (q : α → Bool)
    (a : α) (l : List α) : (l.erase a).countP q ≤ l.countP q :=
  (List.erase_sublist a l).countP_le q

theorem countP_filter_of_imp {α : Type} (q r : α → Bool) (l : List α)
    (h : ∀ a, q a = true → r a = true) :
    (l.filter r).countP q = l.countP q := by
  induction l with
  | nil => rfl
  | cons a t ih =>
      rw [List.filter_cons, List.countP_cons]
      by_cases hq : q a = true
      · rw [if_pos (h a hq), List.countP_cons, ih]
      · have hq0 : q a = false := by
          cases hqa : q a
          · rfl
          · exact absurd hqa hq
        rw [hq0]
        split
        · rw [List.countP_cons, ih, hq0]
        · rw [ih]
          simp


/-! ### Orphan merge nodes are removed by the reduction pass -/

theorem reduceStep_user_subset {g g2 : FlowGraph} {m : GNode}
    (h : reduceStep g m = .ok g2) : g2.user_nodes ⊆ g.user_nodes := by
  unfold reduceStep at h
  split at h
  · cases h
    exact fun a ha => List.erase_subset _ _ ha
  · split at h
    · cases h
    · cases h
      exact fun a ha => List.erase_subset _ _ ha
  · cases h
    exact fun a ha => ha

theorem reduceF_user_subset {fuel : Nat} {g g1 : FlowGraph}
    (h : reduceF fuel g = .ok g1) : g1.user_nodes ⊆ g.user_nodes := by
  induction fuel generalizing g with
  | zero => cases h
  | succ fuel ih =>
      unfold reduceF at h
      split at h
      · cases h
        exact fun a ha => ha
      · split at h
        · cases h
        · rename_i hstep
          exact (ih h).trans (reduceStep_user_subset hstep)

theorem reduce_removes_orphan :
    ∀ fuel (g g1 : FlowGraph) (n : GNode), reduceF fuel g = .ok g1 →
      g.user_nodes.Nodup → n ∈ g.user_nodes → n.kind = .merge →
      inSrcs g n = [] → (outNbrs g n).length = 1 → n ∉ g1.user_nodes := by
  intro fuel
  induction fuel with
  | zero =>
      intro g g1 n h
      cases h
  | succ fuel ih =>
      intro g g1 n h hnd hmem hkind hin hout
      unfold reduceF at h
      cases hfind : findRed g with
      | none =>
          exfalso
          unfold findRed at hfind
          have hp := List.find?_eq_none.mp hfind n hmem
          apply hp
          simp only [decide_eq_true_eq]
          exact ⟨hkind, hout, by rw [hin]; simp⟩
      | some m =>
          rw [hfind] at h
          have hmP := List.find?_some hfind
          simp only [decide_eq_true_eq] at hmP
          obtain ⟨hmk, hmout, hmin⟩ := hmP
          dsimp only at h
          split at h
          · cases h
          · rename_i g2 hstep
            unfold reduceStep at hstep
            split at hstep
            · rename_i hmsrc
              cases hstep
              by_cases hmn : m = n
              · subst hmn
                intro hcontra
                have := reduceF_user_subset h hcontra
                exact absurd ((hnd.mem_erase_iff).mp this).1 (by simp)
              · have hne : n ≠ m := fun he => hmn he.symm
                refine ih _ g1 n h (hnd.erase m)
                  ((List.mem_erase_of_ne hne).mpr hmem) hkind ?_ ?_
                · rw [inSrcs_eq_nil_iff]
                  intro p hp
                  exact inSrcs_eq_nil_iff.mp hin p (List.mem_of_mem_filter hp)
                · rw [outNbrs_length]
                  show (List.countP _ (g.edges.filter _)) = 1
                  rw [countP_filter_of_imp]
                  · rw [← outNbrs_length]
                    exact hout
                  · intro p hp
                    simp only [decide_eq_true_eq] at hp ⊢
                    rw [hp]
                    exact hne
            · rename_i src tl tgt tl2 hmsrc hmtgt
              split at hstep
              · cases hstep
              · rename_i hsrcm
                cases hstep
                have hsrcmem : (src, m) ∈ g.edges :=
                  mem_inSrcs.mp (by rw [hmsrc]; exact List.mem_cons_self _ _)
                have htgtmem : (m, tgt) ∈ g.edges :=
                  mem_outNbrs.mp (by rw [hmtgt]; exact List.mem_cons_self _ _)
                have hnm : n ≠ m := by
                  intro he
                  rw [← he, hin] at hmsrc
                  cases hmsrc
                have htgtn : tgt ≠ n := by
                  intro he
                  exact inSrcs_eq_nil_iff.mp hin (m, tgt) htgtmem he
                have hbase :
                    ((g.edges.erase (m, tgt)).erase (src, m)) ⊆ g.edges :=
                  fun p hp =>
                    List.erase_subset _ _ (List.erase_subset _ _ hp)
                refine ih _ g1 n h (hnd.erase m)
                  ((List.mem_erase_of_ne hnm).mpr hmem) hkind ?_ ?_
                · rw [inSrcs_eq_nil_iff]
                  intro p hp
                  rcases mem_addIfAbsent.mp hp with hp2 | rfl
                  · exact inSrcs_eq_nil_iff.mp hin p (hbase hp2)
                  · exact htgtn
                · rw [outNbrs_length, countP_addIfAbsent]
                  rw [outNbrs_length] at hout
                  by_cases hsn : src = n
                  · subst hsn
                    have hq1 : (fun p => decide (p.1 = src)) ((m, tgt)) = false := by
                      simp only [decide_eq_false_iff_not]
                      exact fun he => hnm he.symm
                    have hstep1 :
                        (g.edges.erase (m, tgt)).countP (fun p => decide (p.1 = src)) = 1 := by
                      rw [countP_erase_not (fun p => decide (p.1 = src))
                        (m, tgt) g.edges hq1]
                      exact hout
                    have hsrcmem2 : (src, m) ∈ g.edges.erase (m, tgt) := by
                      refine (List.mem_erase_of_ne ?_).mpr hsrcmem
                      intro he
                      exact hnm (congrArg Prod.fst he)
                    have hstep2 :
                        ((g.edges.erase (m, tgt)).erase (src, m)).countP
                          (fun p => decide (p.1 = src)) + 1 = 1 := by
                      rw [countP_erase_mem hsrcmem2 (by simp)]
                      exact hstep1
                    have hbase0 :
                        ((g.edges.erase (m, tgt)).erase (src, m)).countP
                          (fun p => decide (p.1 = src)) = 0 := by omega
                    have hnotmem : (src, tgt) ∉ (g.edges.erase (m, tgt)).erase (src, m) := by
                      intro hmem2
                      have : 0 < ((g.edges.erase (m, tgt)).erase (src, m)).countP
                          (fun p => decide (p.1 = src)) :=
                        List.countP_pos.mpr ⟨(src, tgt), hmem2, by simp⟩
                      omega
                    rw [hbase0, if_neg hnotmem, if_pos (by simp)]
                  · have hq1 : (fun p => decide (p.1 = n)) ((m, tgt)) = false := by
                      simp only [decide_eq_false_iff_not]
                      exact fun he => hnm he.symm
                    have hq2 : (fun p => decide (p.1 = n)) ((src, m)) = false := by
                      simp only [decide_eq_false_iff_not]
                      exact hsn
                    rw [countP_erase_not (fun p => decide (p.1 = n))
                        (src, m) (g.edges.erase (m, tgt)) hq2,
                      countP_erase_not (fun p => decide (p.1 = n))
                        (m, tgt) g.edges hq1,
                      hout]
                    split
                    · rfl
                    · rw [if_neg (by simp only [decide_eq_true_eq]; exact hsn)]
            · rename_i hmsrc hmtgt
              rw [hmtgt] at hmout
              cases hmout

/-! ### C7 — what the reduction pass guarantees about orphan merges -/

/-- C7 (amended): whenever the reduction pass completes, it has deleted
every merge node that had zero incoming edges and exactly one outgoing
edge, and no merge node with zero incoming edges and exactly one outgoing
edge remains in the result. -/
theorem c7_merge_reduction :
    ∀ g g1 : FlowGraph, reduce_merge_nodes g = .ok g1 →
      (∀ n, g.user_nodes.Nodup → n ∈ g.user_nodes → n.kind = .merge →
          inSrcs g n = [] → (outNbrs g n).length = 1 → n ∉ g1.user_nodes) ∧
      ∀ n ∈ g1.user_nodes,
        ¬(n.kind = .merge ∧ (outNbrs g1 n).length = 1 ∧ inSrcs g1 n = []) := by
  intro g g1 h
  unfold reduce_merge_nodes at h
  constructor
  · intro n hnd hmem hk hin hout
    exact reduce_removes_orphan _ g g1 n h hnd hmem hk hin hout
  · intro n hmem hc
    obtain ⟨hk, hout, hin⟩ := hc
    have hfind := reduceF_ok_findRed_none h
    unfold findRed at hfind
    have hp := List.find?_eq_none.mp hfind n hmem
    apply hp
    simp only [decide_eq_true_eq]
    exact ⟨hk, hout, by rw [hin]; simp⟩

/-- C7 witness: on a concrete graph with a single zero-indegree
one-outdegree merge node, the node is present before the pass and absent
afterwards. -/
theorem c7_witness :
    (⟨2, .merge, none⟩ : GNode) ∈ soloMergeGraph.user_nodes ∧
    (⟨2, .merge, none⟩ : GNode) ∉ (okRed (reduce_merge_nodes soloMergeGraph)).user_nodes := by
  refine ⟨by decide, ?_⟩
  exact (c7_merge_reduction soloMergeGraph (okRed (reduce_merge_nodes soloMergeGraph))
    (by decide)).1 ⟨2, .merge, none⟩ (by decide) (by decide) rfl (by decide) (by decide)

/-! ### Preservation of the kinds discipline by the graph operations -/

theorem srcOK_iff {g g2 : FlowGraph} (h : g2.start_node = g.start_node)
    (a : GNode) : srcOK g2 a ↔ srcOK g a := by
  unfold srcOK
  rw [h]

theorem tgtOK_iff {g g2 : FlowGraph} (h : g2.end_node = g.end_node)
    (b : GNode) : tgtOK g2 b ↔ tgtOK g b := by
  unfold tgtOK
  rw [h]

theorem srcOK_of_kinds {g : FlowGraph} {a : GNode} (h1 : a.kind ≠ .start)
    (h2 : a.kind ≠ .stop) : srcOK g a :=
  ⟨fun hk => absurd hk h1, h2⟩

theorem tgtOK_of_kinds {g : FlowGraph} {b : GNode} (h1 : b.kind ≠ .start)
    (h2 : b.kind ≠ .stop) : tgtOK g b :=
  ⟨fun hk => absurd hk h2, h1⟩

theorem kindsOK_mkFlowGraph (f : Nat) : kindsOK (mkFlowGraph f).1 := by
  refine ⟨rfl, rfl, ?_, ?_⟩
  · intro n hn
    cases hn
  · intro p hp
    cases hp

theorem kindsOK_addNode {g : FlowGraph} {n : GNode} (hg : kindsOK g)
    (h1 : n.kind ≠ .start) (h2 : n.kind ≠ .stop) :
    kindsOK { g with user_nodes := addIfAbsent n g.user_nodes } := by
  obtain ⟨hs, he, hu, hp⟩ := hg
  refine ⟨hs, he, ?_, hp⟩
  intro x hx
  rcases mem_addIfAbsent.mp hx with hx | rfl
  · exact hu x hx
  · exact ⟨h1, h2⟩

theorem kindsOK_add_edge {g : FlowGraph} {a b : GNode} (hg : kindsOK g)
    (ha : srcOK g a) (hb : tgtOK g b) : kindsOK (add_edge g a b) := by
  obtain ⟨hs, he, hu, hp⟩ := hg
  refine ⟨hs, he, hu, ?_⟩
  intro p hp2
  rw [srcOK_iff (add_edge_start g a b), tgtOK_iff (add_edge_end g a b)]
  rcases mem_add_edge_edges.mp hp2 with hp2 | rfl
  · exact hp p hp2
  · exact ⟨ha, hb⟩

theorem kindsOK_edges_subset {g : FlowGraph} {E : List (GNode × GNode)}
    (hg : kindsOK g) (hE : ∀ p ∈ E, p ∈ g.edges) :
    kindsOK { g with edges := E } := by
  obtain ⟨hs, he, hu, hp⟩ := hg
  exact ⟨hs, he, hu, fun p hp2 => hp p (hE p hp2)⟩

theorem kindsOK_embed {g o : FlowGraph} {sp ep : GNode} (hg : kindsOK g)
    (ho : kindsOK o) (hsp1 : sp.kind ≠ .start) (hsp2 : sp.kind ≠ .stop)
    (hep1 : ep.kind ≠ .start) (hep2 : ep.kind ≠ .stop) :
    kindsOK (embed g o sp ep) := by
  obtain ⟨hs, he, hu, hp⟩ := hg
  obtain ⟨hos, hoe, hou, hop⟩ := ho
  refine ⟨hs, he, ?_, ?_⟩
  · intro n hn
    rcases mem_embed_user.mp hn with hn | hn
    · exact hu n hn
    · exact hou n hn
  · intro p hp2
    rw [srcOK_iff (embed_start g o sp ep), tgtOK_iff (embed_end g o sp ep)]
    rcases mem_embed_edges.mp hp2 with hp2 | ⟨q, hq, rfl⟩
    · exact hp p hp2
    · obtain ⟨⟨hq1s, hq1e⟩, ⟨hq2s, hq2e⟩⟩ := hop q hq
      unfold embedEdge
      constructor
      · dsimp only
        split
        · exact srcOK_of_kinds hsp1 hsp2
        · rename_i hne
          refine ⟨fun hk => absurd (hq1s hk) hne, hq1e⟩
      · dsimp only
        split
        · exact tgtOK_of_kinds hep1 hep2
        · split
          · exact tgtOK_of_kinds hsp1 hsp2
          · rename_i hne1 hne2
            refine ⟨fun hk => absurd (hq2s hk) hne1, hq2e⟩

theorem kindsOK_insertAt {g o : FlowGraph} {i : GNode} {f : Nat}
    (hg : kindsOK g) (ho : kindsOK o) (hi : tgtOK g i) :
    kindsOK (insertAt g o i f).1 := by
  unfold insertAt insert_fake_merge_nodes add_merge_node
  dsimp only
  apply kindsOK_embed _ ho (by simp) (by simp) (by simp) (by simp)
  apply kindsOK_add_edge
  · -- the mapped-edges graph
    obtain ⟨hs, he, hu, hp⟩ := hg
    refine ⟨hs, he, ?_, ?_⟩
    · intro n hn
      rcases mem_addIfAbsent.mp hn with hn | rfl
      · rcases mem_addIfAbsent.mp hn with hn | rfl
        · exact hu n hn
        · exact ⟨by simp, by simp⟩
      · exact ⟨by simp, by simp⟩
    · intro p hp2
      rcases List.mem_map.mp hp2 with ⟨q, hq, rfl⟩
      obtain ⟨⟨hq1s, hq1e⟩, ⟨hq2s, hq2e⟩⟩ := hp q hq
      constructor
      · unfold srcOK
        dsimp only
        split
        · exact ⟨by simp, by simp⟩
        · exact ⟨hq1s, hq1e⟩
      · unfold tgtOK
        dsimp only
        split
        · exact ⟨by simp, by simp⟩
        · exact ⟨hq2s, hq2e⟩
  · exact srcOK_of_kinds (by simp) (by simp)
  · exact ⟨fun hk => hi.1 hk, hi.2⟩

theorem foldl_add_edge_kinds (tgt : GNode → GNode) (l : List GNode)
    (g : FlowGraph) (hg : kindsOK g) (hsrc : ∀ m ∈ l, srcOK g m)
    (htgt : ∀ m ∈ l, tgtOK g (tgt m)) :
    kindsOK (l.foldl (fun h m => add_edge h m (tgt m)) g) := by
  induction l generalizing g with
  | nil => exact hg
  | cons m t ih =>
      simp only [List.foldl_cons]
      apply ih
      · exact kindsOK_add_edge hg (hsrc m (List.mem_cons_self m t))
          (htgt m (List.mem_cons_self m t))
      · intro x hx
        rw [srcOK_iff (add_edge_start g m (tgt m))]
        exact hsrc x (List.mem_cons_of_mem m hx)
      · intro x hx
        rw [tgtOK_iff (add_edge_end g m (tgt m))]
        exact htgt x (List.mem_cons_of_mem m hx)

/-! ### Stack-discipline helper lemmas -/

theorem stOK_fresh {st : BuildState} {x : Nat} :
    stOK { st with fresh := x } ↔ stOK st := Iff.rfl

theorem stOK_push_loop {st : BuildState} (h : stOK st) :
    stOK { st with loop_breaks := [] :: st.loop_breaks } := by
  obtain ⟨hf, hl⟩ := h
  refine ⟨hf, ?_⟩
  intro fr hfr
  rcases List.mem_cons.mp hfr with rfl | hfr
  · intro n hn
    cases hn
  · exact hl fr hfr

theorem stOK_push_func {st : BuildState} (h : stOK st) :
    stOK { st with func_returns := [] :: st.func_returns } := by
  obtain ⟨hf, hl⟩ := h
  refine ⟨?_, hl⟩
  intro fr hfr
  rcases List.mem_cons.mp hfr with rfl | hfr
  · intro n hn
    cases hn
  · exact hf fr hfr

theorem stOK_set_loop {st : BuildState} {fr2 : List (List GNode)}
    (h : stOK st) (hfr : ∀ fr ∈ fr2, ∀ n ∈ fr, n.kind = .statement ∧
      (n.statement = some .brk ∨ n.statement = some .cont)) :
    stOK { st with loop_breaks := fr2 } :=
  ⟨h.1, hfr⟩

theorem stOK_set_func {st : BuildState} {fr2 : List (List GNode)}
    (h : stOK st) (hfr : ∀ fr ∈ fr2, ∀ n ∈ fr, n.kind = .statement) :
    stOK { st with func_returns := fr2 } :=
  ⟨hfr, h.2⟩

/-! ### The atomic-statement fragment in closed form -/

attribute [simp] add_statement_node add_decision_node add_merge_node

theorem buildAtomicN_eq (s : Stmt) (st : BuildState) : buildAtomicN s st =
    (⟨st.fresh + 2, .statement, some s⟩,
     ⟨⟨st.fresh, .start, none⟩, ⟨st.fresh + 1, .stop, none⟩,
      [⟨st.fresh + 2, .statement, some s⟩], [],
      [(⟨st.fresh, .start, none⟩, ⟨st.fresh + 2, .statement, some s⟩),
       (⟨st.fresh + 2, .statement, some s⟩, ⟨st.fresh + 1, .stop, none⟩)]⟩,
     { st with fresh := st.fresh + 3 }) := by
  unfold buildAtomicN mkFlowGraph add_statement_node add_edge addIfAbsent
  simp

theorem buildAtomicN_kinds (s : Stmt) (st : BuildState) :
    kindsOK (buildAtomicN s st).2.1 := by
  rw [buildAtomicN_eq]
  refine ⟨rfl, rfl, ?_, ?_⟩
  · intro n hn
    rcases List.mem_singleton.mp hn with rfl
    exact ⟨by simp, by simp⟩
  · intro p hp
    rcases List.mem_cons.mp hp with rfl | hp
    · exact ⟨⟨fun _ => rfl, by simp⟩, by simp, by simp⟩
    · rcases List.mem_singleton.mp hp with rfl
      exact ⟨⟨by simp, by simp⟩, fun _ => rfl, by simp⟩

/-! ### The build respects the kinds discipline -/

theorem buildF_kinds :
    ∀ fuel inp expand st r st1, buildF fuel inp expand st = (r, st1) →
      stOK st → (∀ l g0, inp = .many l g0 → kindsOK g0) →
      stOK st1 ∧ ∀ g, r = .ok g → kindsOK g := by
  intro fuel
  induction fuel with
  | zero =>
      intro inp expand st r st1 h hst _
      cases h
      exact ⟨hst, by intro g hg; cases hg⟩
  | succ fuel ih =>
      intro inp expand st r st1 h hst hmany
      match inp with
      | .list l =>
          simp only [buildF] at h
          refine ih _ _ _ _ _ h hst ?_
          intro l0 g0 he
          cases he
          apply kindsOK_add_edge (kindsOK_mkFlowGraph st.fresh)
          · exact ⟨fun _ => rfl, by simp [mkFlowGraph]⟩
          · exact ⟨fun _ => rfl, by simp [mkFlowGraph]⟩
      | .many .nil g0 =>
          simp only [buildF] at h
          cases h
          exact ⟨hst, fun g hg => by cases hg; exact hmany _ _ rfl⟩
      | .many (.cons s rest) g0 =>
          simp only [buildF] at h
          split at h
          · rename_i e st2 hchild
            cases h
            exact ⟨(ih _ _ _ _ _ hchild hst (by intro l1 g1 he; cases he)).1,
              by intro g hg; cases hg⟩
          · rename_i child st2 hchild
            have ihc := ih _ _ _ _ _ hchild hst (by intro l1 g1 he; cases he)
            have hg0 := hmany _ _ rfl
            refine ih _ _ _ _ _ h ihc.1 ?_
            intro l1 g1 he
            cases he
            apply kindsOK_insertAt hg0 (ihc.2 child rfl)
            exact ⟨fun _ => rfl, by rw [hg0.2.1]; simp⟩
      | .one s =>
          match s with
          | .atomic t =>
              simp only [buildF] at h
              cases h
              exact ⟨hst, fun g hg => by cases hg; exact buildAtomicN_kinds _ _⟩
          | .implicitReturn =>
              simp only [buildF] at h
              cases h
              exact ⟨hst, fun g hg => by cases hg; exact buildAtomicN_kinds _ _⟩
          | .brk =>
              rw [buildF] at h
              rw [buildAtomicN_eq] at h
              dsimp only at h
              split at h
              · cases h
                exact ⟨hst, by intro g hg; cases hg⟩
              · rename_i top rest htop
                cases h
                refine ⟨?_, ?_⟩
                · refine stOK_set_loop hst ?_
                  intro fr hfr
                  rcases List.mem_cons.mp hfr with rfl | hfr
                  · intro n hn
                    rcases mem_addIfAbsent.mp hn with hn | rfl
                    · exact hst.2 top (by rw [htop]; exact List.mem_cons_self _ _) n hn
                    · exact ⟨rfl, Or.inl rfl⟩
                  · exact hst.2 fr (by rw [htop]; exact List.mem_cons_of_mem _ hfr)
                · intro g hg
                  cases hg
                  have hk0 := buildAtomicN_kinds Stmt.brk st
                  rw [buildAtomicN_eq] at hk0
                  exact kindsOK_edges_subset hk0
                    (fun p hp => List.mem_of_mem_filter hp)
          | .cont =>
              rw [buildF] at h
              rw [buildAtomicN_eq] at h
              dsimp only at h
              split at h
              · cases h
                exact ⟨hst, by intro g hg; cases hg⟩
              · rename_i top rest htop
                cases h
                refine ⟨?_, ?_⟩
                · refine stOK_set_loop hst ?_
                  intro fr hfr
                  rcases List.mem_cons.mp hfr with rfl | hfr
                  · intro n hn
                    rcases mem_addIfAbsent.mp hn with hn | rfl
                    · exact hst.2 top (by rw [htop]; exact List.mem_cons_self _ _) n hn
                    · exact ⟨rfl, Or.inr rfl⟩
                  · exact hst.2 fr (by rw [htop]; exact List.mem_cons_of_mem _ hfr)
                · intro g hg
                  cases hg
                  have hk0 := buildAtomicN_kinds Stmt.cont st
                  rw [buildAtomicN_eq] at hk0
                  exact kindsOK_edges_subset hk0
                    (fun p hp => List.mem_of_mem_filter hp)
          | .ret t =>
              rw [buildF] at h
              rw [buildAtomicN_eq] at h
              dsimp only at h
              split at h
              · cases h
                exact ⟨hst, by intro g hg; cases hg⟩
              · rename_i top rest htop
                cases h
                refine ⟨?_, ?_⟩
                · refine stOK_set_func hst ?_
                  intro fr hfr
                  rcases List.mem_cons.mp hfr with rfl | hfr
                  · intro n hn
                    rcases mem_addIfAbsent.mp hn with hn | rfl
                    · exact hst.1 top (by rw [htop]; exact List.mem_cons_self _ _) n hn
                    · rfl
                  · exact hst.1 fr (by rw [htop]; exact List.mem_cons_of_mem _ hfr)
                · intro g hg
                  cases hg
                  have hk0 := buildAtomicN_kinds (Stmt.ret t) st
                  rw [buildAtomicN_eq] at hk0
                  exact kindsOK_edges_subset hk0
                    (fun p hp => List.mem_of_mem_filter hp)
          | .ifS t body orelse =>
              simp only [buildF] at h
              split at h
              · rename_i e st2 hchild
                cases h
                exact ⟨(ih _ _ _ _ _ hchild hst (by intro l1 g1 he; cases he)).1,
                  by intro g hg; cases hg⟩
              · rename_i child st2 hchild
                have ihc := ih _ _ _ _ _ hchild hst (by intro l1 g1 he; cases he)
                have hskel : kindsOK (add_edge (add_edge
                    ({ (mkFlowGraph st.fresh).1 with user_nodes :=
                        (addIfAbsent ⟨st.fresh + 3, .merge, none⟩
                          (addIfAbsent ⟨st.fresh + 2, .decision, some (.ifS t body orelse)⟩
                            (mkFlowGraph st.fresh).1.user_nodes)) })
                    (mkFlowGraph st.fresh).1.start_node
                    ⟨st.fresh + 2, .decision, some (.ifS t body orelse)⟩)
                    ⟨st.fresh + 3, .merge, none⟩ (mkFlowGraph st.fresh).1.end_node) := by
                  apply kindsOK_add_edge
                  apply kindsOK_add_edge
                  · exact kindsOK_addNode (kindsOK_addNode (kindsOK_mkFlowGraph _)
                      (by simp) (by simp)) (by simp) (by simp)
                  · exact ⟨fun _ => rfl, by simp [mkFlowGraph]⟩
                  · exact tgtOK_of_kinds (by simp) (by simp)
                  · exact srcOK_of_kinds (by simp) (by simp)
                  · exact ⟨fun _ => rfl, by simp [mkFlowGraph]⟩
                split at h
                · cases h
                  refine ⟨ihc.1, ?_⟩
                  intro g hg
                  cases hg
                  apply kindsOK_add_edge
                  · exact kindsOK_embed hskel (ihc.2 child rfl)
                      (by simp [add_decision_node, add_merge_node])
                      (by simp [add_decision_node, add_merge_node])
                      (by simp [add_decision_node, add_merge_node])
                      (by simp [add_decision_node, add_merge_node])
                  · exact srcOK_of_kinds (by simp) (by simp)
                  · exact tgtOK_of_kinds (by simp) (by simp)
                · split at h
                  · rename_i e st3 hchild2
                    cases h
                    exact ⟨(ih _ _ _ _ _ hchild2 ihc.1 (by intro l1 g1 he; cases he)).1,
                      by intro g hg; cases hg⟩
                  · rename_i child2 st3 hchild2
                    have ihc2 := ih _ _ _ _ _ hchild2 ihc.1 (by intro l1 g1 he; cases he)
                    cases h
                    refine ⟨ihc2.1, ?_⟩
                    intro g hg
                    cases hg
                    apply kindsOK_embed _ (ihc2.2 child2 rfl)
                      (by simp) (by simp) (by simp) (by simp)
                    exact kindsOK_embed hskel (ihc.2 child rfl)
                      (by simp) (by simp) (by simp) (by simp)
          | .whileS t body =>
              simp only [buildF] at h
              split at h
              · rename_i e st2 hchild
                cases h
                exact ⟨(ih _ _ _ _ _ hchild (stOK_push_loop hst)
                  (by intro l1 g1 he; cases he)).1, by intro g hg; cases hg⟩
              · rename_i child st2 hchild
                have ihc := ih _ _ _ _ _ hchild (stOK_push_loop hst)
                  (by intro l1 g1 he; cases he)
                split at h
                · cases h
                  exact ⟨ihc.1, by intro g hg; cases hg⟩
                · rename_i top rest htop
                  cases h
                  constructor
                  · refine stOK_set_loop ihc.1 ?_
                    intro fr hfr
                    exact ihc.1.2 fr (by rw [htop]; exact List.mem_cons_of_mem _ hfr)
                  · intro g hg
                    cases hg
                    apply foldl_add_edge_kinds
                    · apply kindsOK_embed _ (ihc.2 child rfl)
                        (by simp) (by simp) (by simp) (by simp)
                      apply kindsOK_add_edge
                      apply kindsOK_add_edge
                      apply kindsOK_add_edge
                      · exact kindsOK_addNode (kindsOK_addNode (kindsOK_mkFlowGraph _)
                          (by simp) (by simp)) (by simp) (by simp)
                      · exact ⟨fun _ => rfl, by simp [mkFlowGraph]⟩
                      · exact tgtOK_of_kinds (by simp) (by simp)
                      · exact srcOK_of_kinds (by simp) (by simp)
                      · exact ⟨fun _ => rfl, by simp [mkFlowGraph]⟩
                      · exact srcOK_of_kinds (by simp) (by simp)
                      · exact ⟨fun _ => rfl, by simp [mkFlowGraph]⟩
                    · intro m hm
                      have := ihc.1.2 top (by rw [htop]; exact List.mem_cons_self _ _) m hm
                      exact srcOK_of_kinds (by rw [this.1]; simp) (by rw [this.1]; simp)
                    · intro m hm
                      dsimp only
                      split
                      · exact tgtOK_of_kinds (by simp) (by simp)
                      · exact tgtOK_of_kinds (by simp) (by simp)
          | .forS t body =>
              simp only [buildF] at h
              split at h
              · rename_i e st2 hchild
                cases h
                exact ⟨(ih _ _ _ _ _ hchild (stOK_push_loop hst)
                  (by intro l1 g1 he; cases he)).1, by intro g hg; cases hg⟩
              · rename_i child st2 hchild
                have ihc := ih _ _ _ _ _ hchild (stOK_push_loop hst)
                  (by intro l1 g1 he; cases he)
                split at h
                · cases h
                  exact ⟨ihc.1, by intro g hg; cases hg⟩
                · rename_i top rest htop
                  cases h
                  constructor
                  · refine stOK_set_loop ihc.1 ?_
                    intro fr hfr
                    exact ihc.1.2 fr (by rw [htop]; exact List.mem_cons_of_mem _ hfr)
                  · intro g hg
                    cases hg
                    apply foldl_add_edge_kinds
                    · apply kindsOK_embed _ (ihc.2 child rfl)
                        (by simp) (by simp) (by simp) (by simp)
                      apply kindsOK_add_edge
                      apply kindsOK_add_edge
                      apply kindsOK_add_edge
                      · exact kindsOK_addNode (kindsOK_addNode (kindsOK_mkFlowGraph _)
                          (by simp) (by simp)) (by simp) (by simp)
                      · exact ⟨fun _ => rfl, by simp [mkFlowGraph]⟩
                      · exact tgtOK_of_kinds (by simp) (by simp)
                      · exact srcOK_of_kinds (by simp) (by simp)
                      · exact ⟨fun _ => rfl, by simp [mkFlowGraph]⟩
                      · exact srcOK_of_kinds (by simp) (by simp)
                      · exact ⟨fun _ => rfl, by simp [mkFlowGraph]⟩
                    · intro m hm
                      have := ihc.1.2 top (by rw [htop]; exact List.mem_cons_self _ _) m hm
                      exact srcOK_of_kinds (by rw [this.1]; simp) (by rw [this.1]; simp)
                    · intro m hm
                      dsimp only
                      split
                      · exact tgtOK_of_kinds (by simp) (by simp)
                      · exact tgtOK_of_kinds (by simp) (by simp)
          | .funcDef t body =>
              simp only [buildF] at h
              split at h
              · rename_i hexp
                split at h
                · rename_i e st2 hchild
                  cases h
                  exact ⟨(ih _ _ _ _ _ hchild (stOK_push_func hst)
                    (by intro l1 g1 he; cases he)).1, by intro g hg; cases hg⟩
                · rename_i child st2 hchild
                  have ihc := ih _ _ _ _ _ hchild (stOK_push_func hst)
                    (by intro l1 g1 he; cases he)
                  split at h
                  · cases h
                    exact ⟨ihc.1, by intro g hg; cases hg⟩
                  · rename_i returns rest hret
                    cases h
                    constructor
                    · refine stOK_set_func ihc.1 ?_
                      intro fr hfr
                      exact ihc.1.1 fr (by rw [hret]; exact List.mem_cons_of_mem _ hfr)
                    · intro g hg
                      cases hg
                      rw [foldl_add_edge_end_eq]
                      apply foldl_add_edge_kinds
                      · exact ihc.2 child rfl
                      · intro m hm
                        have := ihc.1.1 returns
                          (by rw [hret]; exact List.mem_cons_self _ _) m hm
                        exact srcOK_of_kinds (by rw [this]; simp) (by rw [this]; simp)
                      · intro m hm
                        have hck := ihc.2 child rfl
                        exact ⟨fun _ => rfl, by rw [hck.2.1]; simp⟩
              · cases h
                exact ⟨hst, fun g hg => by cases hg; exact buildAtomicN_kinds _ _⟩

/-! ### Reduction preserves the kinds discipline -/

theorem reduceStep_kinds {g g2 : FlowGraph} {m : GNode}
    (h : reduceStep g m = .ok g2) (hg : kindsOK g) : kindsOK g2 := by
  unfold reduceStep at h
  split at h
  · cases h
    obtain ⟨hs, he, hu, hp⟩ := hg
    refine ⟨hs, he, ?_, ?_⟩
    · intro n hn
      exact hu n (List.erase_subset _ _ hn)
    · intro p hp2
      exact hp p (List.mem_of_mem_filter hp2)
  · rename_i src tl tgt tl2 hmsrc hmtgt
    split at h
    · cases h
    · cases h
      obtain ⟨hs, he, hu, hp⟩ := hg
      refine ⟨hs, he, ?_, ?_⟩
      · intro n hn
        exact hu n (List.erase_subset _ _ hn)
      · intro p hp2
        rcases mem_addIfAbsent.mp hp2 with hp2 | rfl
        · exact hp p (List.erase_subset _ _ (List.erase_subset _ _ hp2))
        · have h1 : (src, m) ∈ g.edges :=
            mem_inSrcs.mp (by rw [hmsrc]; exact List.mem_cons_self _ _)
          have h2 : (m, tgt) ∈ g.edges :=
            mem_outNbrs.mp (by rw [hmtgt]; exact List.mem_cons_self _ _)
          exact ⟨(hp _ h1).1, (hp _ h2).2⟩
  · cases h
    exact hg

theorem reduceF_kinds {fuel : Nat} {g g1 : FlowGraph}
    (h : reduceF fuel g = .ok g1) (hg : kindsOK g) : kindsOK g1 := by
  induction fuel generalizing g with
  | zero => cases h
  | succ fuel ih =>
      unfold reduceF at h
      split at h
      · cases h
        exact hg
      · split at h
        · cases h
        · rename_i hstep
          exact ih h (reduceStep_kinds hstep hg)

/-! ### C1 — unique start and stop nodes -/

/-- C1: for every input accepted by the top-level build (any fuel makes
the embedding cover any accepted input), the finished graph has its
distinguished start/stop nodes of start/stop kind, no user node of
start/stop kind, no edge into a start-kind node or out of a stop-kind
node, and the only start-kind (stop-kind) node mentioned by any edge is
the graph's own start (stop) node — so no start/stop node of an embedded
fragment survives. -/
theorem c1_unique_start_stop :
    ∀ fuel a st g st1, from_ast fuel a st = (.ok g, st1) → stOK st →
      g.start_node.kind = .start ∧ g.end_node.kind = .stop ∧
      (∀ n ∈ g.user_nodes, n.kind ≠ .start ∧ n.kind ≠ .stop) ∧
      (∀ p ∈ g.edges,
        (p.1.kind = .start → p.1 = g.start_node) ∧ p.1.kind ≠ .stop ∧
        (p.2.kind = .stop → p.2 = g.end_node) ∧ p.2.kind ≠ .start) := by
  intro fuel a st g st1 h hst
  unfold from_ast at h
  split at h
  · cases h
  · rename_i g0 st2 hbuild
    split at h
    · cases h
    · rename_i g1 hred
      cases h
      have hk0 : kindsOK g0 := by
        unfold flow_graph_from_ast at hbuild
        split at hbuild
        · exact (buildF_kinds _ _ _ _ _ _ hbuild hst
            (by intro l g2 he; cases he)).2 g0 rfl
        · exact (buildF_kinds _ _ _ _ _ _ hbuild hst
            (by intro l g2 he; cases he)).2 g0 rfl
      have hk : kindsOK g := reduceF_kinds hred hk0
      obtain ⟨hs, he, hu, hp⟩ := hk
      refine ⟨hs, he, hu, ?_⟩
      intro p hp2
      obtain ⟨⟨h1, h2⟩, ⟨h3, h4⟩⟩ := hp p hp2
      exact ⟨h1, h2, h3, h4⟩

/-- C1 witness: the property on a concretely built graph. -/
theorem c1_witness :
    stOK st0 ∧
    ∀ n ∈ (okGraph (from_ast 10 (.stmtNode (.atomic 0)) st0)).user_nodes,
      n.kind ≠ .start ∧ n.kind ≠ .stop := by
  constructor
  · exact ⟨fun fr hfr => (nomatch hfr), fun fr hfr => nomatch hfr⟩
  · exact (c1_unique_start_stop 10 (.stmtNode (.atomic 0)) st0
      (okGraph (from_ast 10 (.stmtNode (.atomic 0)) st0))
      (from_ast 10 (.stmtNode (.atomic 0)) st0).2 rfl
      ⟨fun fr hfr => (nomatch hfr), fun fr hfr => nomatch hfr⟩).2.2.1

/-! ### C9 — function definitions inside a module stay atomic -/

theorem insertAt_user_sub_o {g o : FlowGraph} {i : GNode} {f : Nat} :
    o.user_nodes ⊆ (insertAt g o i f).1.user_nodes := by
  intro n hn
  unfold insertAt
  exact mem_embed_user.mpr (Or.inr hn)

theorem insertAt_user_sub_g {g o : FlowGraph} {i : GNode} {f : Nat} :
    g.user_nodes ⊆ (insertAt g o i f).1.user_nodes := by
  intro n hn
  unfold insertAt insert_fake_merge_nodes add_merge_node
  dsimp only
  apply mem_embed_user.mpr
  exact Or.inl (mem_addIfAbsent.mpr (Or.inl (mem_addIfAbsent.mpr (Or.inl hn))))

theorem memS_append_self (s : Stmt) (l : StmtList) :
    StmtList.memS s (l.append (.cons s .nil)) = true := by
  match l with
  | .nil => simp [StmtList.append, StmtList.memS]
  | .cons h t =>
      simp [StmtList.append, StmtList.memS, memS_append_self s t]

theorem buildF_marker :
    ∀ fuel l g0 expand st g st1,
      buildF fuel (.many l g0) expand st = (.ok g, st1) →
      (StmtList.memS .implicitReturn l = true ∨
        ∃ n ∈ g0.user_nodes, n.statement = some .implicitReturn) →
      ∃ n ∈ g.user_nodes, n.statement = some .implicitReturn := by
  intro fuel
  induction fuel with
  | zero =>
      intro l g0 expand st g st1 h
      cases h
  | succ fuel ih =>
      intro l g0 expand st g st1 h hmem
      match l with
      | .nil =>
          simp only [buildF] at h
          rcases hmem with hmem | hmem
          · cases hmem
          · cases h
            exact hmem
      | .cons s rest =>
          simp only [buildF] at h
          split at h
          · exact absurd h (by simp)
          · rename_i child st2 hchild
            refine ih rest _ expand _ g st1 h ?_
            rcases hmem with hmem | hmem
            · simp only [StmtList.memS, Bool.or_eq_true, decide_eq_true_eq] at hmem
              rcases hmem with rfl | hmem
              · right
                cases fuel with
                | zero => exact absurd hchild (by simp [buildF])
                | succ fuel2 =>
                    simp only [buildF] at hchild
                    rw [buildAtomicN_eq] at hchild
                    dsimp only at hchild
                    cases hchild
                    exact ⟨⟨st.fresh + 2, .statement, some .implicitReturn⟩,
                      insertAt_user_sub_o (List.mem_singleton.mpr rfl), rfl⟩
              · exact Or.inl hmem
            · obtain ⟨n, hn, hns⟩ := hmem
              exact Or.inr ⟨n, insertAt_user_sub_g hn, hns⟩

/-- C9: the module rule rebuilds the module body with the expansion flag
reset, a function definition built without expansion is a single atomic
statement node wrapping the whole definition (statement count 1, its body
never expanded into a subgraph), and only when a function definition is
built with expansion (as the top-level input of `from_ast` is) does the
fragment contain the implicit-return marker node of an expanded body. -/
theorem c9_module_functions_atomic :
    ∀ fuel (t : Nat) (body mbody : StmtList) (expand : Bool) (st : BuildState),
      (flow_graph_from_ast fuel (.module mbody) expand st
         = buildF fuel (.list mbody) false st) ∧
      (buildF (fuel + 1) (.one (.funcDef t body)) false st
         = (.ok (buildAtomicN (.funcDef t body) st).2.1,
            (buildAtomicN (.funcDef t body) st).2.2)) ∧
      ((buildAtomicN (.funcDef t body) st).2.1.user_nodes
         = [⟨st.fresh + 2, .statement, some (.funcDef t body)⟩]) ∧
      statement_count (buildAtomicN (.funcDef t body) st).2.1 = 1 ∧
      (∀ g st1, buildF (fuel + 1) (.one (.funcDef t body)) true st = (.ok g, st1) →
        ∃ n ∈ g.user_nodes, n.statement = some .implicitReturn) := by
  intro fuel t body mbody expand st
  refine ⟨rfl, by rw [buildF, buildAtomicN_eq]; rfl, by rw [buildAtomicN_eq], ?_, ?_⟩
  · rw [buildAtomicN_eq]
    simp [statement_count]
  · intro g st1 h
    simp only [buildF, if_true] at h
    split at h
    · exact absurd h (by simp)
    · rename_i child st2 hchild
      split at h
      · exact absurd h (by simp)
      · rename_i returns rest hret
        cases h
        rw [foldl_add_edge_end_eq, foldl_add_edge_user]
        cases fuel with
        | zero => exact absurd hchild (by simp [buildF])
        | succ fuel2 =>
            simp only [buildF] at hchild
            exact buildF_marker _ _ _ _ _ _ _ hchild
              (Or.inl (memS_append_self _ _))

/-- C9 witness: the expanded top-level function contains the marker; the
unexpanded build is checked by the other (hypothesis-free) conjuncts. -/
theorem c9_witness :
    ∃ n ∈ (okGraph (buildF 11 (.one (.funcDef 0 (.cons (.atomic 1) .nil)))
        true st0)).user_nodes, n.statement = some .implicitReturn := by
  exact (c9_module_functions_atomic 10 0 (.cons (.atomic 1) .nil) .nil true
    st0).2.2.2.2
    (okGraph (buildF 11 (.one (.funcDef 0 (.cons (.atomic 1) .nil))) true st0))
    (buildF 11 (.one (.funcDef 0 (.cons (.atomic 1) .nil))) true st0).2 rfl

/-! ### C5 — break/continue wiring of the loop rule -/

/-- C5: for every `while`/`for` loop, each node collected in the loop's
own break/continue frame while its body was built is wired by the loop
rule — a `continue` node gets an edge to the loop's decision node, any
other (`break`) node gets an edge to the loop-exit merge node; the frame
is the one pushed for this loop, so resolution is against the innermost
enclosing loop.  Concretely, for `while c: if d: break`, in the finished
graph the `break` node's only outgoing edge goes directly to the loop-exit
point (the stop node, the merge having been contracted into it), and no
edge leads from the `break` node to any decision node (in particular not
to the loop header). -/
theorem c5_break_continue_wiring :
    (∀ fuel (s : Stmt) (t : Nat) (body : StmtList) (expand : Bool)
        (st : BuildState) (g : FlowGraph) (st1 : BuildState)
        (child : FlowGraph) (st2 : BuildState) (top : List GNode)
        (rest : List (List GNode)),
      (s = .whileS t body ∨ s = .forS t body) →
      buildF (fuel + 1) (.one s) expand st = (.ok g, st1) →
      buildF fuel (.list body) expand
        { st with fresh := st.fresh + 4,
                  loop_breaks := [] :: st.loop_breaks } = (.ok child, st2) →
      st2.loop_breaks = top :: rest →
      ∀ n ∈ top,
        (n.statement = some .cont →
          (n, (⟨st.fresh + 2, .decision, some s⟩ : GNode)) ∈ g.edges) ∧
        (n.statement ≠ some .cont →
          (n, (⟨st.fresh + 3, .merge, none⟩ : GNode)) ∈ g.edges)) ∧
    nestedBreakGraph.user_nodes.any (fun n =>
      decide (n.statement = some .brk) &&
      decide ((n, nestedBreakGraph.end_node) ∈ nestedBreakGraph.edges) &&
      nestedBreakGraph.edges.all (fun p =>
        !decide (p.1 = n) || decide (p.2 = nestedBreakGraph.end_node))) = true ∧
    nestedBreakGraph.edges.all (fun p =>
      !decide (p.1.statement = some Stmt.brk) ||
      !decide (p.2.kind = .decision)) = true := by
  refine ⟨?_, by decide, by decide⟩
  intro fuel s t body expand st g st1 child st2 top rest hs h hchild htop n hn
  have main : ∀ p : GNode × GNode, p = (n, if n.statement = some .cont
      then (⟨st.fresh + 2, .decision, some s⟩ : GNode)
      else (⟨st.fresh + 3, .merge, none⟩ : GNode)) → p ∈ g.edges := by
    rcases hs with rfl | rfl
    · simp only [buildF, add_decision_node, add_merge_node, mkFlowGraph] at h
      rw [(by omega : st.fresh + 2 + 1 + 1 = st.fresh + 4)] at h
      rw [hchild] at h
      dsimp only at h
      rw [htop] at h
      dsimp only at h
      cases h
      intro p hp
      apply (mem_foldl_add_edge _ top _ p).mpr
      exact Or.inr ⟨n, hn, hp⟩
    · simp only [buildF, add_decision_node, add_merge_node, mkFlowGraph] at h
      rw [(by omega : st.fresh + 2 + 1 + 1 = st.fresh + 4)] at h
      rw [hchild] at h
      dsimp only at h
      rw [htop] at h
      dsimp only at h
      cases h
      intro p hp
      apply (mem_foldl_add_edge _ top _ p).mpr
      exact Or.inr ⟨n, hn, hp⟩
  constructor
  · intro hc
    have := main (n, ⟨st.fresh + 2, .decision, some s⟩) (by rw [if_pos hc])
    exact this
  · intro hc
    have := main (n, ⟨st.fresh + 3, .merge, none⟩) (by rw [if_neg hc])
    exact this

/-- C5 witness: the general wiring statement instantiated on the
nested-break loop — the collected `break` node is wired to the loop-exit
merge node of the unreduced loop fragment. -/
theorem c5_witness :
    ((⟨14, .statement, some .brk⟩ : GNode), (⟨3, .merge, none⟩ : GNode)) ∈
      (okGraph (buildF 30 (.one (.whileS 0 nestedBreakBody)) true st0)).edges := by
  have h := c5_break_continue_wiring.1 29 (.whileS 0 nestedBreakBody) 0
    nestedBreakBody true st0
    (okGraph (buildF 30 (.one (.whileS 0 nestedBreakBody)) true st0))
    (buildF 30 (.one (.whileS 0 nestedBreakBody)) true st0).2
    (okGraph (buildF 29 (.list nestedBreakBody) true
      { st0 with fresh := st0.fresh + 4, loop_breaks := [] :: st0.loop_breaks }))
    (buildF 29 (.list nestedBreakBody) true
      { st0 with fresh := st0.fresh + 4, loop_breaks := [] :: st0.loop_breaks }).2
    [⟨14, .statement, some .brk⟩] [] (Or.inl rfl) rfl (by decide) (by decide)
    ⟨14, .statement, some .brk⟩ (List.mem_singleton.mpr rfl)
  exact h.2 (by decide)

/-! ### Frame-growth and id-bound helper lemmas -/

theorem FrameLe_refl (lo hi : Nat) (fr : List GNode) : FrameLe lo hi fr fr :=
  fun n hn => Or.inl hn

theorem FrameLe_widen {lo hi lo2 hi2 : Nat} {a b : List GNode}
    (h : FrameLe lo hi a b) (hl : lo2 ≤ lo) (hh : hi ≤ hi2) :
    FrameLe lo2 hi2 a b := by
  intro n hn
  rcases h n hn with hn2 | ⟨h1, h2⟩
  · exact Or.inl hn2
  · exact Or.inr ⟨le_trans hl h1, lt_of_lt_of_le h2 hh⟩

theorem FrameLe_trans {lo hi : Nat} {a b c : List GNode}
    (h1 : FrameLe lo hi a b) (h2 : FrameLe lo hi b c) : FrameLe lo hi a c := by
  intro n hn
  rcases h2 n hn with hn2 | hr
  · exact h1 n hn2
  · exact Or.inr hr

theorem FramesLe_refl (lo hi : Nat) (st : BuildState) : FramesLe lo hi st st :=
  ⟨List.forall₂_same.mpr (fun fr _ => FrameLe_refl lo hi fr),
   List.forall₂_same.mpr (fun fr _ => FrameLe_refl lo hi fr)⟩

theorem FramesLe_widen {lo hi lo2 hi2 : Nat} {st st2 : BuildState}
    (h : FramesLe lo hi st st2) (hl : lo2 ≤ lo) (hh : hi ≤ hi2) :
    FramesLe lo2 hi2 st st2 :=
  ⟨h.1.imp (fun a b hab => FrameLe_widen hab hl hh),
   h.2.imp (fun a b hab => FrameLe_widen hab hl hh)⟩

theorem forall₂_frameLe_trans {lo hi : Nat} {a b c : List (List GNode)}
    (h1 : List.Forall₂ (FrameLe lo hi) a b)
    (h2 : List.Forall₂ (FrameLe lo hi) b c) :
    List.Forall₂ (FrameLe lo hi) a c := by
  induction h1 generalizing c with
  | nil =>
      cases h2
      exact .nil
  | cons hab h ih =>
      cases h2 with
      | cons hbc h2 => exact .cons (FrameLe_trans hab hbc) (ih h2)

theorem FramesLe_trans {lo hi : Nat} {st st2 st3 : BuildState}
    (h1 : FramesLe lo hi st st2) (h2 : FramesLe lo hi st2 st3) :
    FramesLe lo hi st st3 :=
  ⟨forall₂_frameLe_trans h1.1 h2.1, forall₂_frameLe_trans h1.2 h2.2⟩

theorem gBound_mono {g : FlowGraph} {lo hi lo2 hi2 : Nat}
    (h : gBound g lo hi) (hl : lo2 ≤ lo) (hh : hi ≤ hi2) :
    gBound g lo2 hi2 := by
  intro n hn
  obtain ⟨h1, h2⟩ := h n hn
  exact ⟨le_trans hl h1, lt_of_lt_of_le h2 hh⟩

theorem mentioned_add_edge {g : FlowGraph} {a b n : GNode}
    (h : MentionedIn (add_edge g a b) n) :
    MentionedIn g n ∨ n = a ∨ n = b := by
  rcases h with h | h | h | ⟨p, hp, hc⟩
  · exact Or.inl (Or.inl h)
  · exact Or.inl (Or.inr (Or.inl h))
  · exact Or.inl (Or.inr (Or.inr (Or.inl h)))
  · rcases mem_add_edge_edges.mp hp with hp | rfl
    · exact Or.inl (Or.inr (Or.inr (Or.inr ⟨p, hp, hc⟩)))
    · exact Or.inr hc

theorem gBound_add_edge {g : FlowGraph} {a b : GNode} {lo hi : Nat}
    (hg : gBound g lo hi) (ha : lo ≤ a.id ∧ a.id < hi)
    (hb : lo ≤ b.id ∧ b.id < hi) : gBound (add_edge g a b) lo hi := by
  intro n hn
  rcases mentioned_add_edge hn with hn | rfl | rfl
  · exact hg n hn
  · exact ha
  · exact hb

theorem gBound_addNode {g : FlowGraph} {m : GNode} {lo hi : Nat}
    (hg : gBound g lo hi) (hm : lo ≤ m.id ∧ m.id < hi) :
    gBound { g with user_nodes := addIfAbsent m g.user_nodes } lo hi := by
  intro n hn
  rcases hn with h | h | h | ⟨p, hp, hc⟩
  · exact hg n (Or.inl h)
  · exact hg n (Or.inr (Or.inl h))
  · rcases mem_addIfAbsent.mp h with h | rfl
    · exact hg n (Or.inr (Or.inr (Or.inl h)))
    · exact hm
  · exact hg n (Or.inr (Or.inr (Or.inr ⟨p, hp, hc⟩)))

theorem gBound_edges_subset {g : FlowGraph} {E : List (GNode × GNode)}
    {lo hi : Nat} (hg : gBound g lo hi) (hE : ∀ p ∈ E, p ∈ g.edges) :
    gBound { g with edges := E } lo hi := by
  intro n hn
  rcases hn with h | h | h | ⟨p, hp, hc⟩
  · exact hg n (Or.inl h)
  · exact hg n (Or.inr (Or.inl h))
  · exact hg n (Or.inr (Or.inr (Or.inl h)))
  · exact hg n (Or.inr (Or.inr (Or.inr ⟨p, hE p hp, hc⟩)))

theorem gBound_embed {g o : FlowGraph} {sp ep : GNode} {lo hi : Nat}
    (hg : gBound g lo hi) (ho : gBound o lo hi)
    (hsp : lo ≤ sp.id ∧ sp.id < hi) (hep : lo ≤ ep.id ∧ ep.id < hi) :
    gBound (embed g o sp ep) lo hi := by
  intro n hn
  rcases hn with h | h | h | ⟨p, hp, hc⟩
  · exact hg n (Or.inl h)
  · exact hg n (Or.inr (Or.inl h))
  · rcases mem_embed_user.mp h with h | h
    · exact hg n (Or.inr (Or.inr (Or.inl h)))
    · exact ho n (Or.inr (Or.inr (Or.inl h)))
  · rcases mem_embed_edges.mp hp with hp | ⟨q, hq, rfl⟩
    · exact hg n (Or.inr (Or.inr (Or.inr ⟨p, hp, hc⟩)))
    · unfold embedEdge at hc
      have hq1 : lo ≤ q.1.id ∧ q.1.id < hi :=
        ho q.1 (Or.inr (Or.inr (Or.inr ⟨q, hq, Or.inl rfl⟩)))
      have hq2 : lo ≤ q.2.id ∧ q.2.id < hi :=
        ho q.2 (Or.inr (Or.inr (Or.inr ⟨q, hq, Or.inr rfl⟩)))
      rcases hc with rfl | rfl
      · dsimp only
        split
        · exact hsp
        · exact hq1
      · dsimp only
        split
        · exact hep
        · split
          · exact hsp
          · exact hq2

theorem gBound_insertAt {g o : FlowGraph} {i : GNode} {f lo hi : Nat}
    (hg : gBound g lo hi) (ho : gBound o lo hi)
    (hf : lo ≤ f ∧ f + 1 < hi) (hi2 : lo ≤ i.id ∧ i.id < hi) :
    gBound (insertAt g o i f).1 lo hi := by
  unfold insertAt insert_fake_merge_nodes add_merge_node
  dsimp only
  apply gBound_embed _ ho ⟨hf.1, by dsimp only; omega⟩ ⟨by dsimp only; omega, hf.2⟩
  apply gBound_add_edge _ ⟨by dsimp only; omega, hf.2⟩ hi2
  intro n hn
  rcases hn with h | h | h | ⟨p, hp, hc⟩
  · exact hg n (Or.inl h)
  · exact hg n (Or.inr (Or.inl h))
  · rcases mem_addIfAbsent.mp h with h | rfl
    · rcases mem_addIfAbsent.mp h with h | rfl
      · exact hg n (Or.inr (Or.inr (Or.inl h)))
      · exact ⟨hf.1, by dsimp only; omega⟩
    · exact ⟨by dsimp only; omega, hf.2⟩
  · rcases List.mem_map.mp hp with ⟨q, hq, rfl⟩
    have hq1 : lo ≤ q.1.id ∧ q.1.id < hi :=
      hg q.1 (Or.inr (Or.inr (Or.inr ⟨q, hq, Or.inl rfl⟩)))
    have hq2 : lo ≤ q.2.id ∧ q.2.id < hi :=
      hg q.2 (Or.inr (Or.inr (Or.inr ⟨q, hq, Or.inr rfl⟩)))
    rcases hc with rfl | rfl
    · dsimp only
      split
      · exact ⟨by dsimp only; omega, hf.2⟩
      · exact hq1
    · dsimp only
      split
      · exact ⟨hf.1, by dsimp only; omega⟩
      · exact hq2

theorem mentioned_foldl_add_edge {tgt : GNode → GNode} {l : List GNode}
    {g : FlowGraph} {n : GNode}
    (h : MentionedIn (l.foldl (fun h m => add_edge h m (tgt m)) g) n) :
    MentionedIn g n ∨ ∃ m ∈ l, n = m ∨ n = tgt m := by
  rcases h with h | h | h | ⟨p, hp, hc⟩
  · rw [foldl_add_edge_start] at h
    exact Or.inl (Or.inl h)
  · rw [foldl_add_edge_end] at h
    exact Or.inl (Or.inr (Or.inl h))
  · rw [foldl_add_edge_user] at h
    exact Or.inl (Or.inr (Or.inr (Or.inl h)))
  · rcases (mem_foldl_add_edge tgt l g p).mp hp with hp | ⟨m, hm, rfl⟩
    · exact Or.inl (Or.inr (Or.inr (Or.inr ⟨p, hp, hc⟩)))
    · rcases hc with rfl | rfl
      · exact Or.inr ⟨n, hm, Or.inl rfl⟩
      · exact Or.inr ⟨m, hm, Or.inr rfl⟩

theorem gBound_foldl_add_edge {tgt : GNode → GNode} {l : List GNode}
    {g : FlowGraph} {lo hi : Nat} (hg : gBound g lo hi)
    (hl : ∀ m ∈ l, lo ≤ m.id ∧ m.id < hi)
    (ht : ∀ m ∈ l, lo ≤ (tgt m).id ∧ (tgt m).id < hi) :
    gBound (l.foldl (fun h m => add_edge h m (tgt m)) g) lo hi := by
  intro n hn
  rcases mentioned_foldl_add_edge hn with hn | ⟨m, hm, hc⟩
  · exact hg n hn
  · rcases hc with rfl | rfl
    · exact hl n hm
    · exact ht m hm

theorem gBound_mkFlowGraph (f : Nat) : gBound (mkFlowGraph f).1 f (f + 2) := by
  intro n hn
  rcases hn with rfl | rfl | h | ⟨p, hp, _⟩
  · exact ⟨Nat.le_refl f, by dsimp only [mkFlowGraph]; omega⟩
  · exact ⟨by dsimp only [mkFlowGraph]; omega, by dsimp only [mkFlowGraph]; omega⟩
  · cases h
  · cases hp

theorem gBound_buildAtomicN (s : Stmt) (st : BuildState) :
    gBound (buildAtomicN s st).2.1 st.fresh (st.fresh + 3) := by
  rw [buildAtomicN_eq]
  intro n hn
  rcases hn with rfl | rfl | h | ⟨p, hp, hc⟩
  · exact ⟨Nat.le_refl _, by dsimp only; omega⟩
  · exact ⟨by dsimp only; omega, by dsimp only; omega⟩
  · rcases List.mem_singleton.mp h with rfl
    exact ⟨by dsimp only; omega, by dsimp only; omega⟩
  · rcases List.mem_cons.mp hp with rfl | hp
    · rcases hc with rfl | rfl
      · exact ⟨Nat.le_refl _, by dsimp only; omega⟩
      · exact ⟨by dsimp only; omega, by dsimp only; omega⟩
    · rcases List.mem_singleton.mp hp with rfl
      rcases hc with rfl | rfl
      · exact ⟨by dsimp only; omega, by dsimp only; omega⟩
      · exact ⟨by dsimp only; omega, by dsimp only; omega⟩

/-! ### Freshness: ids of a built fragment lie in the consumed counter range -/

theorem buildF_fresh :
    ∀ fuel inp expand st g st1, buildF fuel inp expand st = (.ok g, st1) →
      st.fresh ≤ st1.fresh ∧
      FramesLe st.fresh st1.fresh st st1 ∧
      (∀ s, inp = .one s → gBound g st.fresh st1.fresh) ∧
      (∀ l, inp = .list l → gBound g st.fresh st1.fresh) ∧
      (∀ l g0, inp = .many l g0 → ∀ lo, lo ≤ st.fresh →
        gBound g0 lo st.fresh → gBound g lo st1.fresh) := by
  intro fuel
  induction fuel with
  | zero =>
      intro inp expand st g st1 h
      exact absurd h (by simp [buildF])
  | succ fuel ih =>
      intro inp expand st g st1 h
      match inp with
      | .list l =>
          simp only [buildF] at h
          have ihm := ih _ _ _ _ _ h
          have hb1 : gBound (add_edge (mkFlowGraph st.fresh).1
              (mkFlowGraph st.fresh).1.start_node
              (mkFlowGraph st.fresh).1.end_node) st.fresh (st.fresh + 2) := by
            apply gBound_add_edge (gBound_mkFlowGraph st.fresh)
            · exact ⟨by simp only [mkFlowGraph]; omega, by simp only [mkFlowGraph]; omega⟩
            · exact ⟨by simp only [mkFlowGraph]; omega, by simp only [mkFlowGraph]; omega⟩
          refine ⟨by have h9 := ihm.1; dsimp only [mkFlowGraph] at h9; omega, ?_, ?_, ?_, ?_⟩
          · exact FramesLe_widen ihm.2.1 (by first | omega | (dsimp only [buildAtomicN, insertAt, insert_fake_merge_nodes, add_merge_node, add_decision_node, add_statement_node, add_edge, mkFlowGraph]; omega)) (le_refl _)
          · intro s he
            cases he
          · intro l2 he
            cases he
            exact ihm.2.2.2.2 _ _ rfl st.fresh (by first | omega | (dsimp only [buildAtomicN, insertAt, insert_fake_merge_nodes, add_merge_node, add_decision_node, add_statement_node, add_edge, mkFlowGraph]; omega)) hb1
          · intro l2 g2 he
            cases he
      | .many .nil g0 =>
          simp only [buildF] at h
          cases h
          refine ⟨le_refl _, FramesLe_refl _ _ _, ?_, ?_, ?_⟩
          · intro s he
            cases he
          · intro l2 he
            cases he
          · intro l2 g2 he
            cases he
            intro lo hlo hb
            exact gBound_mono hb (le_refl _) (le_refl _)
      | .many (.cons s rest) g0 =>
          simp only [buildF] at h
          split at h
          · exact absurd h (by simp)
          · rename_i child st2 hchild
            have ih1 := ih _ _ _ _ _ hchild
            have ih2 := ih _ _ _ _ _ h
            have hmono : st.fresh ≤ st2.fresh := ih1.1
            have hmono2 : st2.fresh + 2 ≤ st1.fresh := ih2.1
            refine ⟨by omega, ?_, ?_, ?_, ?_⟩
            · exact FramesLe_trans
                (FramesLe_widen ih1.2.1 (le_refl _) (by omega))
                (FramesLe_widen ih2.2.1 (by first | omega | (dsimp only [buildAtomicN, insertAt, insert_fake_merge_nodes, add_merge_node, add_decision_node, add_statement_node, add_edge, mkFlowGraph]; omega)) (le_refl _))
            · intro s2 he
              cases he
            · intro l2 he
              cases he
            · intro l2 g2 he
              cases he
              intro lo hlo hb
              have hchildB : gBound child st.fresh st2.fresh := ih1.2.2.1 s rfl
              have hends : lo ≤ g0.end_node.id ∧ g0.end_node.id < st2.fresh + 2 := by
                have := hb g0.end_node (Or.inr (Or.inl rfl))
                exact ⟨this.1, by omega⟩
              have hins : gBound (insertAt g0 child g0.end_node st2.fresh).1
                  lo (st2.fresh + 2) := by
                apply gBound_insertAt
                · exact gBound_mono hb (le_refl _) (by omega)
                · exact gBound_mono hchildB (by omega) (by omega)
                · exact ⟨by omega, by omega⟩
                · exact hends
              exact ih2.2.2.2.2 _ _ rfl lo (by first | omega | (dsimp only [buildAtomicN, insertAt, insert_fake_merge_nodes, add_merge_node, add_decision_node, add_statement_node, add_edge, mkFlowGraph]; omega)) hins
      | .one s =>
          match s with
          | .atomic t =>
              simp only [buildF] at h
              cases h
              refine ⟨by first | omega | (dsimp only [buildAtomicN, insertAt, insert_fake_merge_nodes, add_merge_node, add_decision_node, add_statement_node, add_edge, mkFlowGraph]; omega), FramesLe_refl _ _ _, ?_, ?_, ?_⟩
              · intro s2 he
                cases he
                exact gBound_buildAtomicN _ _
              · intro l2 he
                cases he
              · intro l2 g2 he
                cases he
          | .implicitReturn =>
              simp only [buildF] at h
              cases h
              refine ⟨by first | omega | (dsimp only [buildAtomicN, insertAt, insert_fake_merge_nodes, add_merge_node, add_decision_node, add_statement_node, add_edge, mkFlowGraph]; omega), FramesLe_refl _ _ _, ?_, ?_, ?_⟩
              · intro s2 he
                cases he
                exact gBound_buildAtomicN _ _
              · intro l2 he
                cases he
              · intro l2 g2 he
                cases he
          | .brk =>
              rw [buildF] at h
              rw [buildAtomicN_eq] at h
              dsimp only at h
              split at h
              · exact absurd h (by simp)
              · rename_i top rest htop
                cases h
                refine ⟨by first | omega | (dsimp only [buildAtomicN, insertAt, insert_fake_merge_nodes, add_merge_node, add_decision_node, add_statement_node, add_edge, mkFlowGraph]; omega), ?_, ?_, ?_, ?_⟩
                · constructor
                  · exact List.forall₂_same.mpr (fun fr _ => FrameLe_refl _ _ fr)
                  · rw [htop]
                    refine List.Forall₂.cons ?_
                      (List.forall₂_same.mpr (fun fr _ => FrameLe_refl _ _ fr))
                    intro x hx
                    rcases mem_addIfAbsent.mp hx with hx | rfl
                    · exact Or.inl hx
                    · exact Or.inr ⟨by first | omega | (dsimp only [buildAtomicN, insertAt, insert_fake_merge_nodes, add_merge_node, add_decision_node, add_statement_node, add_edge, mkFlowGraph]; omega), by first | omega | (dsimp only [buildAtomicN, insertAt, insert_fake_merge_nodes, add_merge_node, add_decision_node, add_statement_node, add_edge, mkFlowGraph]; omega)⟩
                · intro s2 he
                  cases he
                  have := gBound_buildAtomicN Stmt.brk st
                  rw [buildAtomicN_eq] at this
                  exact gBound_edges_subset this (fun p hp => List.mem_of_mem_filter hp)
                · intro l2 he
                  cases he
                · intro l2 g2 he
                  cases he
          | .cont =>
              rw [buildF] at h
              rw [buildAtomicN_eq] at h
              dsimp only at h
              split at h
              · exact absurd h (by simp)
              · rename_i top rest htop
                cases h
                refine ⟨by first | omega | (dsimp only [buildAtomicN, insertAt, insert_fake_merge_nodes, add_merge_node, add_decision_node, add_statement_node, add_edge, mkFlowGraph]; omega), ?_, ?_, ?_, ?_⟩
                · constructor
                  · exact List.forall₂_same.mpr (fun fr _ => FrameLe_refl _ _ fr)
                  · rw [htop]
                    refine List.Forall₂.cons ?_
                      (List.forall₂_same.mpr (fun fr _ => FrameLe_refl _ _ fr))
                    intro x hx
                    rcases mem_addIfAbsent.mp hx with hx | rfl
                    · exact Or.inl hx
                    · exact Or.inr ⟨by first | omega | (dsimp only [buildAtomicN, insertAt, insert_fake_merge_nodes, add_merge_node, add_decision_node, add_statement_node, add_edge, mkFlowGraph]; omega), by first | omega | (dsimp only [buildAtomicN, insertAt, insert_fake_merge_nodes, add_merge_node, add_decision_node, add_statement_node, add_edge, mkFlowGraph]; omega)⟩
                · intro s2 he
                  cases he
                  have := gBound_buildAtomicN Stmt.cont st
                  rw [buildAtomicN_eq] at this
                  exact gBound_edges_subset this (fun p hp => List.mem_of_mem_filter hp)
                · intro l2 he
                  cases he
                · intro l2 g2 he
                  cases he
          | .ret t =>
              rw [buildF] at h
              rw [buildAtomicN_eq] at h
              dsimp only at h
              split at h
              · exact absurd h (by simp)
              · rename_i top rest htop
                cases h
                refine ⟨by first | omega | (dsimp only [buildAtomicN, insertAt, insert_fake_merge_nodes, add_merge_node, add_decision_node, add_statement_node, add_edge, mkFlowGraph]; omega), ?_, ?_, ?_, ?_⟩
                · constructor
                  · rw [htop]
                    refine List.Forall₂.cons ?_
                      (List.forall₂_same.mpr (fun fr _ => FrameLe_refl _ _ fr))
                    intro x hx
                    rcases mem_addIfAbsent.mp hx with hx | rfl
                    · exact Or.inl hx
                    · exact Or.inr ⟨by first | omega | (dsimp only [buildAtomicN, insertAt, insert_fake_merge_nodes, add_merge_node, add_decision_node, add_statement_node, add_edge, mkFlowGraph]; omega), by first | omega | (dsimp only [buildAtomicN, insertAt, insert_fake_merge_nodes, add_merge_node, add_decision_node, add_statement_node, add_edge, mkFlowGraph]; omega)⟩
                  · exact List.forall₂_same.mpr (fun fr _ => FrameLe_refl _ _ fr)
                · intro s2 he
                  cases he
                  have := gBound_buildAtomicN (Stmt.ret t) st
                  rw [buildAtomicN_eq] at this
                  exact gBound_edges_subset this (fun p hp => List.mem_of_mem_filter hp)
                · intro l2 he
                  cases he
                · intro l2 g2 he
                  cases he
          | .ifS t body orelse =>
              simp only [buildF] at h
              split at h
              · exact absurd h (by simp)
              · rename_i child st2 hchild
                have ih1 := ih _ _ _ _ _ hchild
                have hchildB : gBound child (st.fresh + 4) st2.fresh :=
                  ih1.2.2.2.1 body rfl
                have hmono : st.fresh + 4 ≤ st2.fresh := ih1.1
                have hskelB : gBound (add_edge (add_edge
                    ({ (mkFlowGraph st.fresh).1 with user_nodes :=
                        (addIfAbsent ⟨st.fresh + 3, .merge, none⟩
                          (addIfAbsent ⟨st.fresh + 2, .decision, some (.ifS t body orelse)⟩
                            (mkFlowGraph st.fresh).1.user_nodes)) })
                    (mkFlowGraph st.fresh).1.start_node
                    ⟨st.fresh + 2, .decision, some (.ifS t body orelse)⟩)
                    ⟨st.fresh + 3, .merge, none⟩ (mkFlowGraph st.fresh).1.end_node)
                    st.fresh (st.fresh + 4) := by
                  apply gBound_add_edge
                  apply gBound_add_edge
                  · exact gBound_addNode (gBound_addNode
                      (gBound_mono (gBound_mkFlowGraph st.fresh) (le_refl _) (by omega))
                      ⟨by dsimp only; omega, by dsimp only; omega⟩)
                      ⟨by dsimp only; omega, by dsimp only; omega⟩
                  · exact ⟨by simp only [mkFlowGraph]; omega, by simp only [mkFlowGraph]; omega⟩
                  · exact ⟨by dsimp only; omega, by dsimp only; omega⟩
                  · exact ⟨by dsimp only; omega, by dsimp only; omega⟩
                  · exact ⟨by simp only [mkFlowGraph]; omega, by simp only [mkFlowGraph]; omega⟩
                split at h
                · cases h
                  refine ⟨by omega, ?_, ?_, ?_, ?_⟩
                  · exact FramesLe_widen ih1.2.1 (by first | omega | (dsimp only [buildAtomicN, insertAt, insert_fake_merge_nodes, add_merge_node, add_decision_node, add_statement_node, add_edge, mkFlowGraph]; omega)) (le_refl _)
                  · intro s2 he
                    cases he
                    apply gBound_add_edge
                    · apply gBound_embed
                      · exact gBound_mono hskelB (le_refl _) (by omega)
                      · exact gBound_mono hchildB (by omega) (le_refl _)
                      · exact ⟨by first | omega | (dsimp only [buildAtomicN, insertAt, insert_fake_merge_nodes, add_merge_node, add_decision_node, add_statement_node, add_edge, mkFlowGraph]; omega), by first | omega | (dsimp only [buildAtomicN, insertAt, insert_fake_merge_nodes, add_merge_node, add_decision_node, add_statement_node, add_edge, mkFlowGraph]; omega)⟩
                      · exact ⟨by first | omega | (dsimp only [buildAtomicN, insertAt, insert_fake_merge_nodes, add_merge_node, add_decision_node, add_statement_node, add_edge, mkFlowGraph]; omega), by first | omega | (dsimp only [buildAtomicN, insertAt, insert_fake_merge_nodes, add_merge_node, add_decision_node, add_statement_node, add_edge, mkFlowGraph]; omega)⟩
                    · exact ⟨by first | omega | (dsimp only [buildAtomicN, insertAt, insert_fake_merge_nodes, add_merge_node, add_decision_node, add_statement_node, add_edge, mkFlowGraph]; omega), by first | omega | (dsimp only [buildAtomicN, insertAt, insert_fake_merge_nodes, add_merge_node, add_decision_node, add_statement_node, add_edge, mkFlowGraph]; omega)⟩
                    · exact ⟨by first | omega | (dsimp only [buildAtomicN, insertAt, insert_fake_merge_nodes, add_merge_node, add_decision_node, add_statement_node, add_edge, mkFlowGraph]; omega), by first | omega | (dsimp only [buildAtomicN, insertAt, insert_fake_merge_nodes, add_merge_node, add_decision_node, add_statement_node, add_edge, mkFlowGraph]; omega)⟩
                  · intro l2 he
                    cases he
                  · intro l2 g2 he
                    cases he
                · split at h
                  · exact absurd h (by simp)
                  · rename_i child2 st3 hchild2
                    have ih2 := ih _ _ _ _ _ hchild2
                    have hchild2B : gBound child2 st2.fresh st3.fresh :=
                      ih2.2.2.2.1 orelse rfl
                    have hmono2 : st2.fresh ≤ st3.fresh := ih2.1
                    cases h
                    refine ⟨by omega, ?_, ?_, ?_, ?_⟩
                    · exact FramesLe_trans
                        (FramesLe_widen ih1.2.1 (by first | omega | (dsimp only [buildAtomicN, insertAt, insert_fake_merge_nodes, add_merge_node, add_decision_node, add_statement_node, add_edge, mkFlowGraph]; omega)) (by first | omega | (dsimp only [buildAtomicN, insertAt, insert_fake_merge_nodes, add_merge_node, add_decision_node, add_statement_node, add_edge, mkFlowGraph]; omega)))
                        (FramesLe_widen ih2.2.1 (by omega) (le_refl _))
                    · intro s2 he
                      cases he
                      apply gBound_embed
                      · apply gBound_embed
                        · exact gBound_mono hskelB (le_refl _) (by omega)
                        · exact gBound_mono hchildB (by omega) (by omega)
                        · exact ⟨by first | omega | (dsimp only [buildAtomicN, insertAt, insert_fake_merge_nodes, add_merge_node, add_decision_node, add_statement_node, add_edge, mkFlowGraph]; omega), by first | omega | (dsimp only [buildAtomicN, insertAt, insert_fake_merge_nodes, add_merge_node, add_decision_node, add_statement_node, add_edge, mkFlowGraph]; omega)⟩
                        · exact ⟨by first | omega | (dsimp only [buildAtomicN, insertAt, insert_fake_merge_nodes, add_merge_node, add_decision_node, add_statement_node, add_edge, mkFlowGraph]; omega), by first | omega | (dsimp only [buildAtomicN, insertAt, insert_fake_merge_nodes, add_merge_node, add_decision_node, add_statement_node, add_edge, mkFlowGraph]; omega)⟩
                      · exact gBound_mono hchild2B (by omega) (le_refl _)
                      · exact ⟨by first | omega | (dsimp only [buildAtomicN, insertAt, insert_fake_merge_nodes, add_merge_node, add_decision_node, add_statement_node, add_edge, mkFlowGraph]; omega), by first | omega | (dsimp only [buildAtomicN, insertAt, insert_fake_merge_nodes, add_merge_node, add_decision_node, add_statement_node, add_edge, mkFlowGraph]; omega)⟩
                      · exact ⟨by first | omega | (dsimp only [buildAtomicN, insertAt, insert_fake_merge_nodes, add_merge_node, add_decision_node, add_statement_node, add_edge, mkFlowGraph]; omega), by first | omega | (dsimp only [buildAtomicN, insertAt, insert_fake_merge_nodes, add_merge_node, add_decision_node, add_statement_node, add_edge, mkFlowGraph]; omega)⟩
                    · intro l2 he
                      cases he
                    · intro l2 g2 he
                      cases he
          | .whileS t body =>
              simp only [buildF] at h
              split at h
              · exact absurd h (by simp)
              · rename_i child st2 hchild
                have ih1 := ih _ _ _ _ _ hchild
                have hchildB : gBound child (st.fresh + 4) st2.fresh :=
                  ih1.2.2.2.1 body rfl
                have hmono : st.fresh + 4 ≤ st2.fresh := ih1.1
                split at h
                · exact absurd h (by simp)
                · rename_i top rest htop
                  cases h
                  have hloopF := ih1.2.1.2
                  rw [htop] at hloopF
                  cases hloopF with
                  | cons htopF hrestF =>
                    have htopR : ∀ m ∈ top,
                        st.fresh + 4 ≤ m.id ∧ m.id < st2.fresh := by
                      intro m hm
                      rcases htopF m hm with hm2 | hm2
                      · cases hm2
                      · exact hm2
                    refine ⟨by first | omega | (dsimp only [buildAtomicN, insertAt, insert_fake_merge_nodes, add_merge_node, add_decision_node, add_statement_node, add_edge, mkFlowGraph]; omega), ?_, ?_, ?_, ?_⟩
                    · constructor
                      · exact List.Forall₂.imp
                          (fun a b hab => FrameLe_widen hab (by first | omega | (dsimp only [buildAtomicN, insertAt, insert_fake_merge_nodes, add_merge_node, add_decision_node, add_statement_node, add_edge, mkFlowGraph]; omega)) (le_refl _))
                          ih1.2.1.1
                      · exact List.Forall₂.imp
                          (fun a b hab => FrameLe_widen hab (by first | omega | (dsimp only [buildAtomicN, insertAt, insert_fake_merge_nodes, add_merge_node, add_decision_node, add_statement_node, add_edge, mkFlowGraph]; omega)) (le_refl _))
                          hrestF
                    · intro s2 he
                      cases he
                      apply gBound_foldl_add_edge
                      · apply gBound_embed
                        · apply gBound_add_edge
                          apply gBound_add_edge
                          apply gBound_add_edge
                          apply gBound_addNode
                          apply gBound_addNode
                          · exact gBound_mono (gBound_mkFlowGraph st.fresh)
                              (le_refl _) (by first | omega | (dsimp only [buildAtomicN, insertAt, insert_fake_merge_nodes, add_merge_node, add_decision_node, add_statement_node, add_edge, mkFlowGraph]; omega))
                          · exact ⟨by first | omega | (dsimp only [buildAtomicN, insertAt, insert_fake_merge_nodes, add_merge_node, add_decision_node, add_statement_node, add_edge, mkFlowGraph]; omega), by first | omega | (dsimp only [buildAtomicN, insertAt, insert_fake_merge_nodes, add_merge_node, add_decision_node, add_statement_node, add_edge, mkFlowGraph]; omega)⟩
                          · exact ⟨by first | omega | (dsimp only [buildAtomicN, insertAt, insert_fake_merge_nodes, add_merge_node, add_decision_node, add_statement_node, add_edge, mkFlowGraph]; omega), by first | omega | (dsimp only [buildAtomicN, insertAt, insert_fake_merge_nodes, add_merge_node, add_decision_node, add_statement_node, add_edge, mkFlowGraph]; omega)⟩
                          · exact ⟨by first | omega | (dsimp only [buildAtomicN, insertAt, insert_fake_merge_nodes, add_merge_node, add_decision_node, add_statement_node, add_edge, mkFlowGraph]; omega),
                              by first | omega | (dsimp only [buildAtomicN, insertAt, insert_fake_merge_nodes, add_merge_node, add_decision_node, add_statement_node, add_edge, mkFlowGraph]; omega)⟩
                          · exact ⟨by first | omega | (dsimp only [buildAtomicN, insertAt, insert_fake_merge_nodes, add_merge_node, add_decision_node, add_statement_node, add_edge, mkFlowGraph]; omega), by first | omega | (dsimp only [buildAtomicN, insertAt, insert_fake_merge_nodes, add_merge_node, add_decision_node, add_statement_node, add_edge, mkFlowGraph]; omega)⟩
                          · exact ⟨by first | omega | (dsimp only [buildAtomicN, insertAt, insert_fake_merge_nodes, add_merge_node, add_decision_node, add_statement_node, add_edge, mkFlowGraph]; omega), by first | omega | (dsimp only [buildAtomicN, insertAt, insert_fake_merge_nodes, add_merge_node, add_decision_node, add_statement_node, add_edge, mkFlowGraph]; omega)⟩
                          · exact ⟨by first | omega | (dsimp only [buildAtomicN, insertAt, insert_fake_merge_nodes, add_merge_node, add_decision_node, add_statement_node, add_edge, mkFlowGraph]; omega),
                              by first | omega | (dsimp only [buildAtomicN, insertAt, insert_fake_merge_nodes, add_merge_node, add_decision_node, add_statement_node, add_edge, mkFlowGraph]; omega)⟩
                          · exact ⟨by first | omega | (dsimp only [buildAtomicN, insertAt, insert_fake_merge_nodes, add_merge_node, add_decision_node, add_statement_node, add_edge, mkFlowGraph]; omega), by first | omega | (dsimp only [buildAtomicN, insertAt, insert_fake_merge_nodes, add_merge_node, add_decision_node, add_statement_node, add_edge, mkFlowGraph]; omega)⟩
                          · exact ⟨by first | omega | (dsimp only [buildAtomicN, insertAt, insert_fake_merge_nodes, add_merge_node, add_decision_node, add_statement_node, add_edge, mkFlowGraph]; omega),
                              by first | omega | (dsimp only [buildAtomicN, insertAt, insert_fake_merge_nodes, add_merge_node, add_decision_node, add_statement_node, add_edge, mkFlowGraph]; omega)⟩
                        · exact gBound_mono hchildB (by omega) (le_refl _)
                        · exact ⟨by first | omega | (dsimp only [buildAtomicN, insertAt, insert_fake_merge_nodes, add_merge_node, add_decision_node, add_statement_node, add_edge, mkFlowGraph]; omega), by first | omega | (dsimp only [buildAtomicN, insertAt, insert_fake_merge_nodes, add_merge_node, add_decision_node, add_statement_node, add_edge, mkFlowGraph]; omega)⟩
                        · exact ⟨by first | omega | (dsimp only [buildAtomicN, insertAt, insert_fake_merge_nodes, add_merge_node, add_decision_node, add_statement_node, add_edge, mkFlowGraph]; omega), by first | omega | (dsimp only [buildAtomicN, insertAt, insert_fake_merge_nodes, add_merge_node, add_decision_node, add_statement_node, add_edge, mkFlowGraph]; omega)⟩
                      · intro m hm
                        have := htopR m hm
                        exact ⟨by first | omega | (dsimp only [buildAtomicN, insertAt, insert_fake_merge_nodes, add_merge_node, add_decision_node, add_statement_node, add_edge, mkFlowGraph]; omega), by first | omega | (dsimp only [buildAtomicN, insertAt, insert_fake_merge_nodes, add_merge_node, add_decision_node, add_statement_node, add_edge, mkFlowGraph]; omega)⟩
                      · intro m hm
                        dsimp only
                        split
                        · exact ⟨by first | omega | (dsimp only [buildAtomicN, insertAt, insert_fake_merge_nodes, add_merge_node, add_decision_node, add_statement_node, add_edge, mkFlowGraph]; omega), by first | omega | (dsimp only [buildAtomicN, insertAt, insert_fake_merge_nodes, add_merge_node, add_decision_node, add_statement_node, add_edge, mkFlowGraph]; omega)⟩
                        · exact ⟨by first | omega | (dsimp only [buildAtomicN, insertAt, insert_fake_merge_nodes, add_merge_node, add_decision_node, add_statement_node, add_edge, mkFlowGraph]; omega), by first | omega | (dsimp only [buildAtomicN, insertAt, insert_fake_merge_nodes, add_merge_node, add_decision_node, add_statement_node, add_edge, mkFlowGraph]; omega)⟩
                    · intro l2 he
                      cases he
                    · intro l2 g2 he
                      cases he
          | .forS t body =>
              simp only [buildF] at h
              split at h
              · exact absurd h (by simp)
              · rename_i child st2 hchild
                have ih1 := ih _ _ _ _ _ hchild
                have hchildB : gBound child (st.fresh + 4) st2.fresh :=
                  ih1.2.2.2.1 body rfl
                have hmono : st.fresh + 4 ≤ st2.fresh := ih1.1
                split at h
                · exact absurd h (by simp)
                · rename_i top rest htop
                  cases h
                  have hloopF := ih1.2.1.2
                  rw [htop] at hloopF
                  cases hloopF with
                  | cons htopF hrestF =>
                    have htopR : ∀ m ∈ top,
                        st.fresh + 4 ≤ m.id ∧ m.id < st2.fresh := by
                      intro m hm
                      rcases htopF m hm with hm2 | hm2
                      · cases hm2
                      · exact hm2
                    refine ⟨by first | omega | (dsimp only [buildAtomicN, insertAt, insert_fake_merge_nodes, add_merge_node, add_decision_node, add_statement_node, add_edge, mkFlowGraph]; omega), ?_, ?_, ?_, ?_⟩
                    · constructor
                      · exact List.Forall₂.imp
                          (fun a b hab => FrameLe_widen hab (by first | omega | (dsimp only [buildAtomicN, insertAt, insert_fake_merge_nodes, add_merge_node, add_decision_node, add_statement_node, add_edge, mkFlowGraph]; omega)) (le_refl _))
                          ih1.2.1.1
                      · exact List.Forall₂.imp
                          (fun a b hab => FrameLe_widen hab (by first | omega | (dsimp only [buildAtomicN, insertAt, insert_fake_merge_nodes, add_merge_node, add_decision_node, add_statement_node, add_edge, mkFlowGraph]; omega)) (le_refl _))
                          hrestF
                    · intro s2 he
                      cases he
                      apply gBound_foldl_add_edge
                      · apply gBound_embed
                        · apply gBound_add_edge
                          apply gBound_add_edge
                          apply gBound_add_edge
                          apply gBound_addNode
                          apply gBound_addNode
                          · exact gBound_mono (gBound_mkFlowGraph st.fresh)
                              (le_refl _) (by first | omega | (dsimp only [buildAtomicN, insertAt, insert_fake_merge_nodes, add_merge_node, add_decision_node, add_statement_node, add_edge, mkFlowGraph]; omega))
                          · exact ⟨by first | omega | (dsimp only [buildAtomicN, insertAt, insert_fake_merge_nodes, add_merge_node, add_decision_node, add_statement_node, add_edge, mkFlowGraph]; omega), by first | omega | (dsimp only [buildAtomicN, insertAt, insert_fake_merge_nodes, add_merge_node, add_decision_node, add_statement_node, add_edge, mkFlowGraph]; omega)⟩
                          · exact ⟨by first | omega | (dsimp only [buildAtomicN, insertAt, insert_fake_merge_nodes, add_merge_node, add_decision_node, add_statement_node, add_edge, mkFlowGraph]; omega), by first | omega | (dsimp only [buildAtomicN, insertAt, insert_fake_merge_nodes, add_merge_node, add_decision_node, add_statement_node, add_edge, mkFlowGraph]; omega)⟩
                          · exact ⟨by first | omega | (dsimp only [buildAtomicN, insertAt, insert_fake_merge_nodes, add_merge_node, add_decision_node, add_statement_node, add_edge, mkFlowGraph]; omega),
                              by first | omega | (dsimp only [buildAtomicN, insertAt, insert_fake_merge_nodes, add_merge_node, add_decision_node, add_statement_node, add_edge, mkFlowGraph]; omega)⟩
                          · exact ⟨by first | omega | (dsimp only [buildAtomicN, insertAt, insert_fake_merge_nodes, add_merge_node, add_decision_node, add_statement_node, add_edge, mkFlowGraph]; omega), by first | omega | (dsimp only [buildAtomicN, insertAt, insert_fake_merge_nodes, add_merge_node, add_decision_node, add_statement_node, add_edge, mkFlowGraph]; omega)⟩
                          · exact ⟨by first | omega | (dsimp only [buildAtomicN, insertAt, insert_fake_merge_nodes, add_merge_node, add_decision_node, add_statement_node, add_edge, mkFlowGraph]; omega), by first | omega | (dsimp only [buildAtomicN, insertAt, insert_fake_merge_nodes, add_merge_node, add_decision_node, add_statement_node, add_edge, mkFlowGraph]; omega)⟩
                          · exact ⟨by first | omega | (dsimp only [buildAtomicN, insertAt, insert_fake_merge_nodes, add_merge_node, add_decision_node, add_statement_node, add_edge, mkFlowGraph]; omega),
                              by first | omega | (dsimp only [buildAtomicN, insertAt, insert_fake_merge_nodes, add_merge_node, add_decision_node, add_statement_node, add_edge, mkFlowGraph]; omega)⟩
                          · exact ⟨by first | omega | (dsimp only [buildAtomicN, insertAt, insert_fake_merge_nodes, add_merge_node, add_decision_node, add_statement_node, add_edge, mkFlowGraph]; omega), by first | omega | (dsimp only [buildAtomicN, insertAt, insert_fake_merge_nodes, add_merge_node, add_decision_node, add_statement_node, add_edge, mkFlowGraph]; omega)⟩
                          · exact ⟨by first | omega | (dsimp only [buildAtomicN, insertAt, insert_fake_merge_nodes, add_merge_node, add_decision_node, add_statement_node, add_edge, mkFlowGraph]; omega),
                              by first | omega | (dsimp only [buildAtomicN, insertAt, insert_fake_merge_nodes, add_merge_node, add_decision_node, add_statement_node, add_edge, mkFlowGraph]; omega)⟩
                        · exact gBound_mono hchildB (by first | omega | (dsimp only [buildAtomicN, insertAt, insert_fake_merge_nodes, add_merge_node, add_decision_node, add_statement_node, add_edge, mkFlowGraph]; omega)) (le_refl _)
                        · exact ⟨by first | omega | (dsimp only [buildAtomicN, insertAt, insert_fake_merge_nodes, add_merge_node, add_decision_node, add_statement_node, add_edge, mkFlowGraph]; omega), by first | omega | (dsimp only [buildAtomicN, insertAt, insert_fake_merge_nodes, add_merge_node, add_decision_node, add_statement_node, add_edge, mkFlowGraph]; omega)⟩
                        · exact ⟨by first | omega | (dsimp only [buildAtomicN, insertAt, insert_fake_merge_nodes, add_merge_node, add_decision_node, add_statement_node, add_edge, mkFlowGraph]; omega), by first | omega | (dsimp only [buildAtomicN, insertAt, insert_fake_merge_nodes, add_merge_node, add_decision_node, add_statement_node, add_edge, mkFlowGraph]; omega)⟩
                      · intro m hm
                        have := htopR m hm
                        exact ⟨by first | omega | (dsimp only [buildAtomicN, insertAt, insert_fake_merge_nodes, add_merge_node, add_decision_node, add_statement_node, add_edge, mkFlowGraph]; omega), by first | omega | (dsimp only [buildAtomicN, insertAt, insert_fake_merge_nodes, add_merge_node, add_decision_node, add_statement_node, add_edge, mkFlowGraph]; omega)⟩
                      · intro m hm
                        dsimp only
                        split
                        · exact ⟨by first | omega | (dsimp only [buildAtomicN, insertAt, insert_fake_merge_nodes, add_merge_node, add_decision_node, add_statement_node, add_edge, mkFlowGraph]; omega), by first | omega | (dsimp only [buildAtomicN, insertAt, insert_fake_merge_nodes, add_merge_node, add_decision_node, add_statement_node, add_edge, mkFlowGraph]; omega)⟩
                        · exact ⟨by first | omega | (dsimp only [buildAtomicN, insertAt, insert_fake_merge_nodes, add_merge_node, add_decision_node, add_statement_node, add_edge, mkFlowGraph]; omega), by first | omega | (dsimp only [buildAtomicN, insertAt, insert_fake_merge_nodes, add_merge_node, add_decision_node, add_statement_node, add_edge, mkFlowGraph]; omega)⟩
                    · intro l2 he
                      cases he
                    · intro l2 g2 he
                      cases he
          | .funcDef t body =>
              simp only [buildF] at h
              split at h
              · split at h
                · exact absurd h (by simp)
                · rename_i child st2 hchild
                  have ih1 := ih _ _ _ _ _ hchild
                  have hchildB : gBound child st.fresh st2.fresh :=
                    ih1.2.2.2.1 _ rfl
                  have hmono : st.fresh ≤ st2.fresh := ih1.1
                  split at h
                  · exact absurd h (by simp)
                  · rename_i returns rest hret
                    cases h
                    have hfuncF := ih1.2.1.1
                    rw [hret] at hfuncF
                    cases hfuncF with
                    | cons hretF hrestF =>
                      have hretR : ∀ m ∈ returns,
                          st.fresh ≤ m.id ∧ m.id < st2.fresh := by
                        intro m hm
                        rcases hretF m hm with hm2 | hm2
                        · cases hm2
                        · exact hm2
                      refine ⟨by first | omega | (dsimp only [buildAtomicN, insertAt, insert_fake_merge_nodes, add_merge_node, add_decision_node, add_statement_node, add_edge, mkFlowGraph]; omega), ?_, ?_, ?_, ?_⟩
                      · exact ⟨hrestF, ih1.2.1.2⟩
                      · intro s2 he
                        cases he
                        rw [foldl_add_edge_end_eq]
                        apply gBound_foldl_add_edge hchildB
                        · intro m hm
                          exact hretR m hm
                        · intro m hm
                          exact hchildB child.end_node (Or.inr (Or.inl rfl))
                      · intro l2 he
                        cases he
                      · intro l2 g2 he
                        cases he
              · cases h
                refine ⟨by first | omega | (dsimp only [buildAtomicN, insertAt, insert_fake_merge_nodes, add_merge_node, add_decision_node, add_statement_node, add_edge, mkFlowGraph]; omega), FramesLe_refl _ _ _, ?_, ?_, ?_⟩
                · intro s2 he
                  cases he
                  exact gBound_buildAtomicN _ _
                · intro l2 he
                  cases he
                · intro l2 g2 he
                  cases he

/-! ### No-break bookkeeping and duplicate-freedom helpers -/

theorem nodup_addIfAbsent {α : Type} [DecidableEq α] {x : α} {l : List α}
    (h : l.Nodup) : (addIfAbsent x l).Nodup := by
  unfold addIfAbsent
  split
  · exact h
  · rename_i hx
    rw [List.nodup_append]
    exact ⟨h, List.nodup_singleton x, by
      intro a ha hb
      rcases List.mem_singleton.mp hb with rfl
      exact hx ha⟩

theorem nodup_foldl_addIfAbsent {α β : Type} [DecidableEq α] (f : β → α)
    (l : List β) {init : List α} (h : init.Nodup) :
    (l.foldl (fun es q => addIfAbsent (f q) es) init).Nodup := by
  induction l generalizing init with
  | nil => exact h
  | cons q t ih => exact ih (nodup_addIfAbsent h)

theorem nodup_foldl_addIfAbsent_id {α : Type} [DecidableEq α]
    (l : List α) {init : List α} (h : init.Nodup) :
    (l.foldl (fun u n => addIfAbsent n u) init).Nodup := by
  induction l generalizing init with
  | nil => exact h
  | cons q t ih => exact ih (nodup_addIfAbsent h)

theorem nodup_foldl_add_edge_edges (tgt : GNode → GNode) (l : List GNode)
    {g : FlowGraph} (h : g.edges.Nodup) :
    (l.foldl (fun h m => add_edge h m (tgt m)) g).edges.Nodup := by
  induction l generalizing g with
  | nil => exact h
  | cons m t ih => exact ih (nodup_addIfAbsent h)

theorem filter_eq_singleton {α : Type} {l : List α} {q : α → Bool} {a : α}
    (hnd : l.Nodup) (ha : a ∈ l) (hq : q a = true)
    (huniq : ∀ x ∈ l, q x = true → x = a) : l.filter q = [a] := by
  induction l with
  | nil => cases ha
  | cons b t ih =>
      obtain ⟨hbt, hndt⟩ := List.nodup_cons.mp hnd
      rcases List.mem_cons.mp ha with rfl | ha2
      · rw [List.filter_cons, if_pos hq]
        have ht : t.filter q = [] := by
          rw [List.filter_eq_nil_iff]
          intro x hx hqx
          exact absurd (huniq x (List.mem_cons_of_mem _ hx) hqx ▸ hx) hbt
        rw [ht]
      · have hqb : q b = false := by
          cases hqb0 : q b
          · rfl
          · exact absurd (huniq b (List.mem_cons_self _ _) hqb0 ▸ ha2) hbt
        rw [List.filter_cons, if_neg (by rw [hqb]; exact Bool.false_ne_true)]
        exact ih hndt ha2 (fun x hx hqx => huniq x (List.mem_cons_of_mem _ hx) hqx)

theorem noBrkL_append (a b : StmtList) :
    noBrkL (a.append b) = (noBrkL a && noBrkL b) := by
  match a with
  | .nil => simp [StmtList.append, noBrkL]
  | .cons s t =>
      simp [StmtList.append, noBrkL, noBrkL_append t b, Bool.and_assoc]

theorem buildF_brkFree :
    ∀ fuel inp expand st g st1, buildF fuel inp expand st = (.ok g, st1) →
      BrkFree st.loop_breaks → noBrkB inp = true →
      BrkFree st1.loop_breaks := by
  intro fuel
  induction fuel with
  | zero =>
      intro inp expand st g st1 h
      exact absurd h (by simp [buildF])
  | succ fuel ih =>
      intro inp expand st g st1 h hbf hnb
      match inp with
      | .list l =>
          simp only [buildF] at h
          exact ih _ _ _ _ _ h hbf hnb
      | .many .nil g0 =>
          simp only [buildF] at h
          cases h
          exact hbf
      | .many (.cons s rest) g0 =>
          simp only [noBrkB, noBrkL, Bool.and_eq_true] at hnb
          simp only [buildF] at h
          split at h
          · exact absurd h (by simp)
          · rename_i child st2 hchild
            have hbf2 : BrkFree st2.loop_breaks := ih _ _ _ _ _ hchild hbf hnb.1
            exact ih _ _ _ _ _ h hbf2 hnb.2
      | .one s =>
          match s with
          | .atomic t =>
              simp only [buildF] at h
              cases h
              exact hbf
          | .implicitReturn =>
              simp only [buildF] at h
              cases h
              exact hbf
          | .brk =>
              exact absurd hnb (by simp [noBrkB, noBrkS])
          | .cont =>
              rw [buildF] at h
              rw [buildAtomicN_eq] at h
              dsimp only at h
              split at h
              · exact absurd h (by simp)
              · rename_i top rest htop
                cases h
                intro fr hfr
                rcases List.mem_cons.mp hfr with rfl | hfr
                · intro n hn
                  rcases mem_addIfAbsent.mp hn with hn | rfl
                  · exact hbf top (by rw [htop]; exact List.mem_cons_self _ _) n hn
                  · simp
                · exact hbf fr (by rw [htop]; exact List.mem_cons_of_mem _ hfr)
          | .ret t =>
              rw [buildF] at h
              rw [buildAtomicN_eq] at h
              dsimp only at h
              split at h
              · exact absurd h (by simp)
              · cases h
                exact hbf
          | .ifS t body orelse =>
              simp only [noBrkB, noBrkS, Bool.and_eq_true] at hnb
              simp only [buildF] at h
              split at h
              · exact absurd h (by simp)
              · rename_i child st2 hchild
                have h2 := ih _ _ _ _ _ hchild hbf (by simp [noBrkB, hnb.1])
                split at h
                · cases h
                  exact h2
                · split at h
                  · exact absurd h (by simp)
                  · rename_i child2 st3 hchild2
                    cases h
                    exact ih _ _ _ _ _ hchild2 h2 (by simp [noBrkB, hnb.2])
          | .whileS t body =>
              simp only [noBrkB, noBrkS] at hnb
              simp only [buildF] at h
              split at h
              · exact absurd h (by simp)
              · rename_i child st2 hchild
                have hbf2 : BrkFree ([] :: st.loop_breaks) := by
                  intro fr hfr
                  rcases List.mem_cons.mp hfr with rfl | hfr
                  · intro n hn
                    cases hn
                  · exact hbf fr hfr
                have h2 := ih _ _ _ _ _ hchild hbf2 (by simp [noBrkB, hnb])
                split at h
                · exact absurd h (by simp)
                · rename_i top rest htop
                  cases h
                  intro fr hfr
                  exact h2 fr (by rw [htop]; exact List.mem_cons_of_mem _ hfr)
          | .forS t body =>
              simp only [noBrkB, noBrkS] at hnb
              simp only [buildF] at h
              split at h
              · exact absurd h (by simp)
              · rename_i child st2 hchild
                have hbf2 : BrkFree ([] :: st.loop_breaks) := by
                  intro fr hfr
                  rcases List.mem_cons.mp hfr with rfl | hfr
                  · intro n hn
                    cases hn
                  · exact hbf fr hfr
                have h2 := ih _ _ _ _ _ hchild hbf2 (by simp [noBrkB, hnb])
                split at h
                · exact absurd h (by simp)
                · rename_i top rest htop
                  cases h
                  intro fr hfr
                  exact h2 fr (by rw [htop]; exact List.mem_cons_of_mem _ hfr)
          | .funcDef t body =>
              simp only [buildF] at h
              split at h
              · split at h
                · exact absurd h (by simp)
                · rename_i child st2 hchild
                  simp only [noBrkB, noBrkS] at hnb
                  have h2 := ih _ _ _ _ _ hchild hbf (by
                    simp [noBrkB, noBrkL_append, hnb, noBrkL, noBrkS])
                  split at h
                  · exact absurd h (by simp)
                  · cases h
                    exact h2
              · cases h
                exact hbf

/-! ### C6 — the loop-exit merge of a break-free loop is removed -/

/-- C6: for a `while`/`for` loop with no `break` anywhere inside it, built
as a top-level input with fresh target stacks, the loop-exit merge node
(the merge created by the loop rule, id `st.fresh + 3`) is absent from the
finished graph: nothing ever wires an edge into it, so the reduction pass
deletes it as a zero-indegree orphan. -/
theorem c6_loop_exit_merge_removed :
    ∀ fuel (t : Nat) (body : StmtList) (s : Stmt) (st : BuildState)
      (g : FlowGraph) (st1 : BuildState),
      (s = .whileS t body ∨ s = .forS t body) →
      noBrkL body = true →
      st.func_returns = [] → st.loop_breaks = [] →
      from_ast fuel (.stmtNode s) st = (.ok g, st1) →
      (⟨st.fresh + 3, .merge, none⟩ : GNode) ∉ g.user_nodes := by
  intro fuel t body s st g st1 hs hnb hfr hlb h
  rcases st with ⟨f0, fr0, lb0⟩
  dsimp only at hfr hlb h ⊢
  subst hfr
  subst hlb
  unfold from_ast at h
  split at h
  · cases h
  · rename_i g0 st2 hbuild
    split at h
    · cases h
    · rename_i g1 hred
      cases h
      unfold flow_graph_from_ast at hbuild
      cases fuel with
      | zero => exact absurd hbuild (by simp [buildF])
      | succ fuel =>
        have hstp : stOK ⟨f0 + 4, [], [[]]⟩ := by
          constructor
          · intro fr hfr2
            cases hfr2
          · intro fr hfr2
            rcases List.mem_cons.mp hfr2 with rfl | hfr2
            · intro n hn
              cases hn
            · cases hfr2
        have hbfp : BrkFree ([[]] : List (List GNode)) := by
          intro fr hfr2
          rcases List.mem_cons.mp hfr2 with rfl | hfr2
          · intro n hn
            cases hn
          · cases hfr2
        rcases hs with rfl | rfl
        · simp only [buildF] at hbuild
          split at hbuild
          · exact absurd hbuild (by simp)
          · rename_i child st2i hchild
            split at hbuild
            · exact absurd hbuild (by simp)
            · rename_i topF restF htop
              cases hbuild
              have hfresh := buildF_fresh fuel _ true _ child st2i hchild
              have hchildB : gBound child (f0 + 4) st2i.fresh :=
                hfresh.2.2.2.1 body rfl
              have hstok : stOK st2i :=
                (buildF_kinds fuel _ true _ _ _ hchild hstp
                  (by intro l g2 he; cases he)).1
              have hbf : BrkFree st2i.loop_breaks :=
                buildF_brkFree fuel _ true _ _ _ hchild hbfp
                  (by simp [noBrkB, hnb])
              have htopMem : topF ∈ st2i.loop_breaks := by
                rw [htop]
                exact List.mem_cons_self _ _
              have htopC : ∀ m ∈ topF, m.statement = some Stmt.cont := by
                intro m hm
                have h1 := hstok.2 topF htopMem m hm
                have h2 := hbf topF htopMem m hm
                rcases h1.2 with hc | hc
                · exact absurd hc h2
                · exact hc
              have htopR : ∀ m ∈ topF, f0 + 4 ≤ m.id ∧ m.id < st2i.fresh := by
                have hlf := hfresh.2.1.2
                rw [htop] at hlf
                cases hlf with
                | cons htf _ =>
                    intro m hm
                    rcases htf m hm with hm2 | hm2
                    · cases hm2
                    · exact hm2
              unfold reduce_merge_nodes at hred
              refine reduce_removes_orphan _ _ _ _ hred ?_ ?_ rfl ?_ ?_
              · rw [foldl_add_edge_user]
                apply nodup_foldl_addIfAbsent_id
                simp only [add_edge_user, add_decision_node, add_merge_node]
                apply nodup_addIfAbsent
                apply nodup_addIfAbsent
                simp [mkFlowGraph]
              · rw [foldl_add_edge_user]
                apply mem_embed_user.mpr
                apply Or.inl
                simp only [add_edge_user]
                exact mem_addIfAbsent.mpr (Or.inr rfl)
              · rw [inSrcs_eq_nil_iff]
                intro p hp
                rcases (mem_foldl_add_edge _ _ _ p).mp hp with hp | ⟨m, hm, rfl⟩
                · rcases mem_embed_edges.mp hp with hp | ⟨q, hq, rfl⟩
                  · rcases mem_add_edge_edges.mp hp with hp | rfl
                    · rcases mem_add_edge_edges.mp hp with hp | rfl
                      · rcases mem_add_edge_edges.mp hp with hp | rfl
                        · simp [mkFlowGraph] at hp
                        · intro he
                          simp at he
                      · intro he
                        simp [mkFlowGraph] at he
                    · intro he
                      simp [mkFlowGraph] at he
                  · unfold embedEdge
                    dsimp only
                    split
                    · intro he
                      simp at he
                    · split
                      · intro he
                        simp at he
                      · intro he
                        have hq2 := hchildB q.2
                          (Or.inr (Or.inr (Or.inr ⟨q, hq, Or.inr rfl⟩)))
                        rw [he] at hq2
                        dsimp only at hq2
                        omega
                · dsimp only
                  rw [if_pos (htopC m hm)]
                  intro he
                  simp at he
              · unfold outNbrs
                rw [@filter_eq_singleton (GNode × GNode) _ _
                    ((⟨f0 + 3, .merge, none⟩ : GNode),
                     (⟨f0 + 1, .stop, none⟩ : GNode)) ?_ ?_ (by simp) ?_]
                · rfl
                · apply nodup_foldl_add_edge_edges
                  apply nodup_foldl_addIfAbsent
                  simp only [add_edge]
                  apply nodup_addIfAbsent
                  apply nodup_addIfAbsent
                  apply nodup_addIfAbsent
                  simp [mkFlowGraph]
                · apply (mem_foldl_add_edge _ _ _ _).mpr
                  apply Or.inl
                  apply mem_embed_edges.mpr
                  apply Or.inl
                  exact mem_add_edge_edges.mpr (Or.inr rfl)
                · intro x hx hx1
                  simp only [decide_eq_true_eq] at hx1
                  rcases (mem_foldl_add_edge _ _ _ x).mp hx with hx | ⟨m, hm, rfl⟩
                  · rcases mem_embed_edges.mp hx with hx | ⟨q, hq, rfl⟩
                    · rcases mem_add_edge_edges.mp hx with hx | rfl
                      · rcases mem_add_edge_edges.mp hx with hx | rfl
                        · rcases mem_add_edge_edges.mp hx with hx | rfl
                          · simp [mkFlowGraph] at hx
                          · simp [mkFlowGraph] at hx1
                        · simp at hx1
                      · rfl
                    · unfold embedEdge at hx1 ⊢
                      dsimp only at hx1
                      split at hx1
                      · simp at hx1
                      · have hq1 := hchildB q.1
                          (Or.inr (Or.inr (Or.inr ⟨q, hq, Or.inl rfl⟩)))
                        rw [hx1] at hq1
                        dsimp only at hq1
                        omega
                  · dsimp only at hx1
                    have := (htopR m hm).1
                    rw [hx1] at this
                    dsimp only at this
                    omega
        · simp only [buildF] at hbuild
          split at hbuild
          · exact absurd hbuild (by simp)
          · rename_i child st2i hchild
            split at hbuild
            · exact absurd hbuild (by simp)
            · rename_i topF restF htop
              cases hbuild
              have hfresh := buildF_fresh fuel _ true _ child st2i hchild
              have hchildB : gBound child (f0 + 4) st2i.fresh :=
                hfresh.2.2.2.1 body rfl
              have hstok : stOK st2i :=
                (buildF_kinds fuel _ true _ _ _ hchild hstp
                  (by intro l g2 he; cases he)).1
              have hbf : BrkFree st2i.loop_breaks :=
                buildF_brkFree fuel _ true _ _ _ hchild hbfp
                  (by simp [noBrkB, hnb])
              have htopMem : topF ∈ st2i.loop_breaks := by
                rw [htop]
                exact List.mem_cons_self _ _
              have htopC : ∀ m ∈ topF, m.statement = some Stmt.cont := by
                intro m hm
                have h1 := hstok.2 topF htopMem m hm
                have h2 := hbf topF htopMem m hm
                rcases h1.2 with hc | hc
                · exact absurd hc h2
                · exact hc
              have htopR : ∀ m ∈ topF, f0 + 4 ≤ m.id ∧ m.id < st2i.fresh := by
                have hlf := hfresh.2.1.2
                rw [htop] at hlf
                cases hlf with
                | cons htf _ =>
                    intro m hm
                    rcases htf m hm with hm2 | hm2
                    · cases hm2
                    · exact hm2
              unfold reduce_merge_nodes at hred
              refine reduce_removes_orphan _ _ _ _ hred ?_ ?_ rfl ?_ ?_
              · rw [foldl_add_edge_user]
                apply nodup_foldl_addIfAbsent_id
                simp only [add_edge_user, add_decision_node, add_merge_node]
                apply nodup_addIfAbsent
                apply nodup_addIfAbsent
                simp [mkFlowGraph]
              · rw [foldl_add_edge_user]
                apply mem_embed_user.mpr
                apply Or.inl
                simp only [add_edge_user]
                exact mem_addIfAbsent.mpr (Or.inr rfl)
              · rw [inSrcs_eq_nil_iff]
                intro p hp
                rcases (mem_foldl_add_edge _ _ _ p).mp hp with hp | ⟨m, hm, rfl⟩
                · rcases mem_embed_edges.mp hp with hp | ⟨q, hq, rfl⟩
                  · rcases mem_add_edge_edges.mp hp with hp | rfl
                    · rcases mem_add_edge_edges.mp hp with hp | rfl
                      · rcases mem_add_edge_edges.mp hp with hp | rfl
                        · simp [mkFlowGraph] at hp
                        · intro he
                          simp at he
                      · intro he
                        simp [mkFlowGraph] at he
                    · intro he
                      simp [mkFlowGraph] at he
                  · unfold embedEdge
                    dsimp only
                    split
                    · intro he
                      simp at he
                    · split
                      · intro he
                        simp at he
                      · intro he
                        have hq2 := hchildB q.2
                          (Or.inr (Or.inr (Or.inr ⟨q, hq, Or.inr rfl⟩)))
                        rw [he] at hq2
                        dsimp only at hq2
                        omega
                · dsimp only
                  rw [if_pos (htopC m hm)]
                  intro he
                  simp at he
              · unfold outNbrs
                rw [@filter_eq_singleton (GNode × GNode) _ _
                    ((⟨f0 + 3, .merge, none⟩ : GNode),
                     (⟨f0 + 1, .stop, none⟩ : GNode)) ?_ ?_ (by simp) ?_]
                · rfl
                · apply nodup_foldl_add_edge_edges
                  apply nodup_foldl_addIfAbsent
                  simp only [add_edge]
                  apply nodup_addIfAbsent
                  apply nodup_addIfAbsent
                  apply nodup_addIfAbsent
                  simp [mkFlowGraph]
                · apply (mem_foldl_add_edge _ _ _ _).mpr
                  apply Or.inl
                  apply mem_embed_edges.mpr
                  apply Or.inl
                  exact mem_add_edge_edges.mpr (Or.inr rfl)
                · intro x hx hx1
                  simp only [decide_eq_true_eq] at hx1
                  rcases (mem_foldl_add_edge _ _ _ x).mp hx with hx | ⟨m, hm, rfl⟩
                  · rcases mem_embed_edges.mp hx with hx | ⟨q, hq, rfl⟩
                    · rcases mem_add_edge_edges.mp hx with hx | rfl
                      · rcases mem_add_edge_edges.mp hx with hx | rfl
                        · rcases mem_add_edge_edges.mp hx with hx | rfl
                          · simp [mkFlowGraph] at hx
                          · simp [mkFlowGraph] at hx1
                        · simp at hx1
                      · rfl
                    · unfold embedEdge at hx1 ⊢
                      dsimp only at hx1
                      split at hx1
                      · simp at hx1
                      · have hq1 := hchildB q.1
                          (Or.inr (Or.inr (Or.inr ⟨q, hq, Or.inl rfl⟩)))
                        rw [hx1] at hq1
                        dsimp only at hq1
                        omega
                  · dsimp only at hx1
                    have := (htopR m hm).1
                    rw [hx1] at this
                    dsimp only at this
                    omega

/-- C6 witness: a concrete break-free `while` loop — its loop-exit merge
node (id 3) is gone from the finished graph. -/
theorem c6_witness :
    (⟨3, .merge, none⟩ : GNode) ∉
      (okGraph (from_ast 30 (.stmtNode (.whileS 0 (.cons (.atomic 1) .nil)))
        st0)).user_nodes := by
  exact c6_loop_exit_merge_removed 30 0 (.cons (.atomic 1) .nil)
    (.whileS 0 (.cons (.atomic 1) .nil)) st0
    (okGraph (from_ast 30 (.stmtNode (.whileS 0 (.cons (.atomic 1) .nil))) st0))
    (from_ast 30 (.stmtNode (.whileS 0 (.cons (.atomic 1) .nil))) st0).2
    (Or.inl rfl) (by simp [noBrkL, noBrkS]) rfl rfl rfl

end Flow
